import Mathlib

/-!
# rcp: path resolution, mount discovery and copy orchestration

A shallow embedding of `cmd/root.go` and `cmd/config.go`.

Go strings are byte sequences; they are embedded as lists whose elements stand
for single bytes, so `List.length` is Go's `len` and `List.drop` is Go's
`s[n:]`.  Only the ASCII bytes `/`, `.`, `:` and `{` are ever inspected.

The Go standard library functions the program calls (`strings.*`,
`path/filepath.*` on Unix) are embedded first, then the program itself.
-/

namespace Rcp

/-- A Go string: a sequence of bytes. -/
abbrev GoString := List Char

/-- A Go string constant. -/
def str (s : String) : GoString := s.toList

/-! ## Package `strings` -/

/-- Go `strings.HasPrefix(s, pre)`. -/
def strings.HasPrefix (s pre : GoString) : Bool := pre.isPrefixOf s

/-- Go `strings.HasSuffix(s, suf)`. -/
def strings.HasSuffix (s suf : GoString) : Bool := suf.isSuffixOf s

/-- Go `strings.Contains(s, substr)`: `substr` occurs somewhere in `s`. -/
def strings.Contains : GoString → GoString → Bool
  | [], substr => substr.isEmpty
  | c :: t, substr => substr.isPrefixOf (c :: t) || strings.Contains t substr

/-- Go `strings.TrimPrefix(s, pre)`. -/
def strings.TrimPrefix (s pre : GoString) : GoString :=
  if strings.HasPrefix s pre then s.drop pre.length else s

/-- Go `strings.TrimSuffix(s, suf)`. -/
def strings.TrimSuffix (s suf : GoString) : GoString :=
  if strings.HasSuffix s suf then s.take (s.length - suf.length) else s

/-- Go `strings.Split(s, sep)` for a one-byte separator: the pieces of `s`
between the occurrences of `sep`; always at least one piece. -/
def strings.Split : GoString → Char → List GoString
  | [], _ => [[]]
  | c :: t, sep =>
    if c = sep then [] :: strings.Split t sep
    else
      match strings.Split t sep with
      | [] => [[c]]
      | h :: r => (c :: h) :: r

/-- Go `strings.Join(elems, sep)`. -/
def strings.Join : List GoString → GoString → GoString
  | [], _ => []
  | [e], _ => e
  | e :: e2 :: rest, sep => e ++ sep ++ strings.Join (e2 :: rest) sep

/-- Go `strings.Count(s, sep)` for a one-byte separator. -/
def strings.Count (s : GoString) (sep : Char) : Nat := s.count sep

/-! ## Package `path/filepath` (Unix) -/

/-- Go `filepath.IsAbs` on Unix. -/
def filepath.IsAbs (path : GoString) : Bool := strings.HasPrefix path (str "/")

/-- The condition `out.w > dotdot` of `filepath.Clean`: the output holds an
element that a `..` may remove. -/
def filepath.canBacktrack (out : List GoString) : Bool :=
  match out.getLast? with
  | none => false
  | some l => l != str ".."

/-- One turn of the loop of `filepath.Clean`, on the path element `e`, with
the elements written so far in `out`. -/
def filepath.cleanStep (rooted : Bool) (out : List GoString) (e : GoString) : List GoString :=
  if e = [] then out
  else if e = str "." then out
  else if e = str ".." then
    if filepath.canBacktrack out then out.dropLast
    else if !rooted then out ++ [str ".."]
    else out
  else out ++ [e]

/-- The elements `filepath.Clean` writes for `path`: its loop visits the pieces
of `path` between separators in order. -/
def filepath.cleanElems (path : GoString) : List GoString :=
  (strings.Split path '/').foldl (filepath.cleanStep (filepath.IsAbs path)) []

/-- Go `filepath.Clean` on Unix. -/
def filepath.Clean (path : GoString) : GoString :=
  if path = [] then str "."
  else
    let out := (if filepath.IsAbs path then str "/" else []) ++
      strings.Join (filepath.cleanElems path) (str "/")
    if out = [] then str "." else out

/-- The scanning loop of `filepath.Rel`: `b` and `t` are `base[b0:]` and
`targ[t0:]`.  Returns `base[b0:bi]`, `base[b0:]` and `targ[t0:]` at loop exit.
Each turn shortens `b`, so `len(base) + 1` turns of fuel are never used up. -/
def filepath.relLoop : Nat → GoString → GoString → GoString × GoString × GoString
  | 0, b, t => ([], b, t)
  | fuel + 1, b, t =>
    if b = [] ∨ t = [] then ([], b, t)
    else
      let eb := b.takeWhile (· != '/')
      let et := t.takeWhile (· != '/')
      if et ≠ eb then (eb, b, t)
      else filepath.relLoop fuel (b.drop (eb.length + 1)) (t.drop (et.length + 1))

/-- Go `filepath.Rel` on Unix.  `isSubFolder` accepts its result only when the
loop has used up the whole base; with base elements left over the result is an
error or starts with `..`, and `isSubFolder` answers false either way. -/
def filepath.Rel (basepath targpath : GoString) : Except GoString GoString :=
  let base := filepath.Clean basepath
  let targ := filepath.Clean targpath
  if targ = base then .ok (str ".")
  else
    let base := if base = str "." then [] else base
    if filepath.IsAbs base != filepath.IsAbs targ then
      .error (str "Rel: can't make " ++ targpath ++ str " relative to " ++ basepath)
    else
      match filepath.relLoop (base.length + 1) base targ with
      | (cur, b, t) =>
        if cur = str ".." then
          .error (str "Rel: can't make " ++ targpath ++ str " relative to " ++ basepath)
        else if b ≠ [] then
          .ok (str ".." ++ (List.replicate (strings.Count b '/') (str "/..")).flatten ++
            (if t ≠ [] then str "/" ++ t else []))
        else .ok t

/-- Go `filepath.Join` on Unix: the elements from the first non-empty one on,
joined by separators and cleaned. -/
def filepath.Join : List GoString → GoString
  | [] => []
  | e :: rest =>
    if e ≠ [] then filepath.Clean (strings.Join (e :: rest) (str "/"))
    else filepath.Join rest

/-- Go `filepath.Base` on Unix. -/
def filepath.Base (path : GoString) : GoString :=
  if path = [] then str "."
  else
    let p := (path.reverse.dropWhile (· == '/')).reverse
    let e := (p.reverse.takeWhile (· != '/')).reverse
    if e = [] then str "/" else e

/-- Go `filepath.Abs` on Unix; `getwd` is the outcome of `os.Getwd`. -/
def filepath.Abs (getwd : Except GoString GoString) (path : GoString) :
    Except GoString GoString :=
  if filepath.IsAbs path then .ok (filepath.Clean path)
  else
    match getwd with
    | .error e => .error e
    | .ok wd => .ok (filepath.Join [wd, path])

/-! ## `cmd/root.go`: path resolution -/

/-- Source: `isRclone`. -/
def isRclone (fsType : GoString) : Bool := strings.Contains fsType (str "rclone")

/-- Source: `isSubFolder`. -/
def isSubFolder (base sub : GoString) : Except GoString Bool :=
  match filepath.Rel base sub with
  | .error err => .error err
  | .ok relPath => .ok (!filepath.IsAbs relPath && !strings.Contains relPath (str ".."))

/-- Source: `Remote`. -/
structure Remote where
  Name : GoString
  Bucket : GoString
  Mountpoint : GoString
  deriving DecidableEq, Repr

/-- The value of `ok` after `ok, _ := isSubFolder(base, sub)`. -/
def isSubFolderOk (base sub : GoString) : Bool :=
  match isSubFolder base sub with
  | .ok b => b
  | .error _ => false

/-- Source: `remotePath`.  `none` is the run-time panic of the slice expression
`path[len(remote.Mountpoint):]` when the low bound exceeds `len(path)`. -/
def remotePath (path : GoString) : List Remote → Option (GoString × Bool)
  | [] => some (path, false)
  | remote :: remotes =>
    if isSubFolderOk remote.Mountpoint path then
      if remote.Mountpoint.length ≤ path.length then
        let p := path.drop remote.Mountpoint.length
        let p := strings.TrimPrefix p (str "/")
        some (strings.TrimSuffix
          (remote.Name ++ str ":" ++ remote.Bucket ++ str "/" ++ p) (str "/"), true)
      else none
    else remotePath path remotes

/-! ## `cmd/config.go` and mount discovery -/

/-- An error value of package `os`; `notExist` is what `os.IsNotExist` reports. -/
structure OsError where
  text : GoString
  notExist : Bool
  deriving DecidableEq, Repr

/-- How the process ends other than by returning: `errorExit(format, a...)`
(message on standard error, exit status 1), or a run-time panic. -/
inductive Exit where
  | fatal (format : GoString) (a : List GoString)
  | panic
  deriving DecidableEq, Repr

/-- Source: `errorExit`. -/
def errorExit (format : GoString) (a : List GoString) : Exit := Exit.fatal format a

/-- Source: `Config`. -/
structure Config where
  Remotes : List Remote
  deriving DecidableEq, Repr

/-- What `ReadConfig` asks of the operating system and of the YAML decoder.
`decode` gives the error of `decoder.Decode(&cfg)` or the final value of the
pointer `cfg`. -/
structure ConfigEnv where
  userConfigDir : Except OsError GoString
  openFile : GoString → Except OsError GoString
  decode : GoString → Except GoString (Option Config)

/-- Source: `ReadConfig`. -/
def ReadConfig (env : ConfigEnv) (configPath : GoString) : Except GoString (Option Config) :=
  let located : Except (Except GoString (Option Config)) GoString :=
    if configPath = [] then
      match env.userConfigDir with
      | .error err => if err.notExist then .error (.ok none) else .error (.error err.text)
      | .ok configDir => .ok (filepath.Join [configDir, str "rcp", str "rcp.yaml"])
    else .ok configPath
  match located with
  | .error early => early
  | .ok configPath =>
    match env.openFile configPath with
    | .error err => if err.notExist then .ok none else .error err.text
    | .ok file =>
      match env.decode file with
      | .error err => .error err
      | .ok cfg => .ok cfg

/-- One entry of the mount table: the fields of `mountinfo.Info` that are read. -/
structure mountinfo.Info where
  Mountpoint : GoString
  FSType : GoString
  Source : GoString
  deriving DecidableEq, Repr

/-- The scan of `mountinfo.GetMounts(filter)` over the mount table: an entry the
filter skips is left out, and the scan ends after a kept entry with `stop`. -/
def mountinfo.scan (filter : mountinfo.Info → Bool × Bool) :
    List mountinfo.Info → List mountinfo.Info
  | [] => []
  | p :: rest =>
    if (filter p).1 then mountinfo.scan filter rest
    else if (filter p).2 then [p]
    else p :: mountinfo.scan filter rest

/-- The filter closure `GetMounts` passes to `mountinfo.GetMounts`. -/
def mountFilter (mount : mountinfo.Info) : Bool × Bool :=
  if isRclone mount.FSType then (false, false) else (true, false)

/-- The body of the `for _, mount := range mounts` loop of `GetMounts`. -/
def mountStep (remotes : List Remote) (mount : mountinfo.Info) : List Remote :=
  let ss := strings.Split mount.Source ':'
  if ss.length ≠ 2 then remotes
  else
    let name := ss.getD 0 []
    let bucket := ss.getD 1 []
    let n := strings.Split name '{'
    if n.length > 2 then remotes
    else
      let name := if n.length = 2 then n.getD 0 [] else name
      remotes ++ [{ Name := name, Bucket := bucket, Mountpoint := mount.Mountpoint }]

/-- The records `GetMounts` derives from the mount table (lines 166-197,
when the mount-table query succeeds). -/
def discover (table : List mountinfo.Info) : List Remote :=
  (mountinfo.scan mountFilter table).foldl mountStep []

/-- Source: `GetMounts`.  `table` is the outcome of reading the mount table. -/
def GetMounts (table : Except GoString (List mountinfo.Info)) (env : ConfigEnv) :
    Except Exit (List Remote) :=
  match table with
  | .error err => .error (errorExit (str "mount info: %s") [err])
  | .ok table =>
    let remotes := discover table
    match ReadConfig env [] with
    | .error err => .error (errorExit (str "read config: %s") [err])
    | .ok none => .ok remotes
    | .ok (some cfg) => .ok (cfg.Remotes ++ remotes)

/-! ## `cmd/root.go`: copy orchestration -/

/-- Outcome of `os.Stat`. -/
inductive Stat where
  | err (e : OsError)
  | info (isDir : Bool)
  deriving DecidableEq, Repr

/-- The effects of `copyRemote` on the outside world, in order. -/
inductive Event where
  | prompt
  | mkdirAll (path : GoString)
  | start (name : GoString) (args : List GoString)
  | wait
  deriving DecidableEq, Repr

/-- What `copyRemote` asks of the outside world: the working directory, the
file system before the command, the answer to the confirmation prompt, and the
outcomes of `os.MkdirAll`, `c.Start()` and `c.Wait()` (`none`: no error). -/
structure World where
  getwd : Except GoString GoString
  stat : GoString → Stat
  prompt : Except GoString GoString
  mkdirAll : GoString → Option GoString
  start : List GoString → Option GoString
  wait : Option GoString

/-- A run of `copyRemote`: its effects and how it ended (`none`: it returned). -/
structure Run where
  trace : List Event
  exit : Option Exit
  deriving DecidableEq, Repr

/-- `fmt.Sprintf("%d", n)`. -/
def fmtInt (n : Int) : GoString := (toString n).toList

/-- Lines 149-162 of `copyRemote`: the external transfer. -/
def dispatch (w : World) (parallel : Int) (sRemote dRemote : GoString) : Run :=
  let a := [str "copyto", sRemote, dRemote, str "--transfers=" ++ fmtInt parallel,
    str "--checkers=" ++ fmtInt parallel, str "-P"]
  match w.start a with
  | some err => ⟨[Event.start (str "rclone") a], some (errorExit (str "%s") [err])⟩
  | none =>
    match w.wait with
    | some err => ⟨[Event.start (str "rclone") a, Event.wait], some (errorExit (str "%s") [err])⟩
    | none => ⟨[Event.start (str "rclone") a, Event.wait], none⟩

/-- Lines 138-148 of `copyRemote`: `destDir` is the value of
`dfolder || (dinfo != nil && dinfo.IsDir())`, `stat` the file system then. -/
def shapeDest (w : World) (stat : GoString → Stat) (parallel : Int)
    (source s d sRemote dRemote : GoString) (sIsDir destDir : Bool) : Run :=
  if destDir then
    let dRemote := dRemote ++ str "/"
    if !sIsDir then
      let dRemoteFile := filepath.Join [d, filepath.Base s]
      if stat dRemoteFile = Stat.info true then
        ⟨[], some (errorExit (str "cannot overwrite directory '%s' with file '%s'")
          [dRemoteFile, source])⟩
      else dispatch w parallel sRemote (dRemote ++ filepath.Base s)
    else dispatch w parallel sRemote dRemote
  else dispatch w parallel sRemote dRemote

/-- The file system after a successful `os.MkdirAll(d)`. -/
def statAfterMkdir (stat : GoString → Stat) (d : GoString) : GoString → Stat :=
  fun p => if p = d then Stat.info true else stat p

/-- Lines 108-163 of `copyRemote`: source and destination shapes, then the
transfer. -/
def reconcile (w : World) (parallel : Int) (source dest s d sRemote dRemote : GoString) : Run :=
  match w.stat s with
  | .err e => ⟨[], some (errorExit (str "stat %s: %s") [source, e.text])⟩
  | .info sIsDir =>
    if !sIsDir && strings.HasSuffix source (str "/") then
      ⟨[], some (errorExit (str "'%s' is a file, not a directory.") [source])⟩
    else
      let sRemote := if sIsDir then sRemote ++ str "/" else sRemote
      match w.stat d with
      | .err e =>
        if e.notExist then
          if strings.HasSuffix dest (str "/") then
            match w.mkdirAll d with
            | some err => ⟨[Event.mkdirAll d], some (errorExit err [])⟩
            | none =>
              let r := shapeDest w (statAfterMkdir w.stat d) parallel source s d sRemote dRemote
                sIsDir true
              ⟨Event.mkdirAll d :: r.trace, r.exit⟩
          else shapeDest w w.stat parallel source s d sRemote dRemote sIsDir false
        else ⟨[], some (errorExit (str "stat %s: %s") [dest, e.text])⟩
      | .info dIsDir =>
        if !dIsDir && sIsDir then
          ⟨[], some (errorExit (str "cannot overwrite non-directory '%s' with directory '%s'")
            [dest, source])⟩
        else if !dIsDir && strings.HasSuffix dest (str "/") then
          ⟨[], some (errorExit (str "'%s' is a file, not a directory.") [dest])⟩
        else shapeDest w w.stat parallel source s d sRemote dRemote sIsDir dIsDir

/-- Lines 88-107 of `copyRemote`: the confirmation of an upload.  `none`: go on. -/
def confirm (w : World) (dOk : Bool) : List Event × Option Exit :=
  if dOk then
    match w.prompt with
    | .error err => ([Event.prompt], some (errorExit err []))
    | .ok result =>
      if strings.Contains (str "nN") result then ([Event.prompt], some (errorExit (str "Abort") []))
      else ([Event.prompt], none)
  else ([], none)

/-- Source: `copyRemote`.  `parallel` is the package variable of that name. -/
def copyRemote (w : World) (parallel : Int) (source dest d : GoString)
    (remotes : List Remote) : Run :=
  match filepath.Abs w.getwd source with
  | .error err => ⟨[], some (errorExit (str "stat %s: %s") [source, err])⟩
  | .ok s =>
    if s = d then
      ⟨[], some (errorExit (str "Nothing to do as '%s' and '%s' are the same") [source, dest])⟩
    else
      match remotePath s remotes with
      | none => ⟨[], some Exit.panic⟩
      | some (sRemote, sOk) =>
        match remotePath d remotes with
        | none => ⟨[], some Exit.panic⟩
        | some (dRemote, dOk) =>
          if !sOk && !dOk then
            ⟨[], some (errorExit (str "Recommended to use the 'cp' command") [])⟩
          else
            match confirm w dOk with
            | (tr, some e) => ⟨tr, some e⟩
            | (tr, none) =>
              let r := reconcile w parallel source dest s d sRemote dRemote
              ⟨tr ++ r.trace, r.exit⟩

/-! ## Specification-level notions and sample inputs -/

/-- The confirmation of an upload is declined: the prompt fails or the answer
is one the command treats as "no". -/
def declined (w : World) : Bool := (confirm w true).2.isSome

/-- The location of the configuration file under the user configuration directory. -/
def configFile (configDir : GoString) : GoString :=
  filepath.Join [configDir, str "rcp", str "rcp.yaml"]

/-- The record mount discovery derives from the source specifier of an entry:
defined when the source has exactly one `:` and the name before it at most one
`{`; the name is cut before its `{`, the bucket is what follows the `:`. -/
def sourceRecord (m : mountinfo.Info) : Option Remote :=
  let name := m.Source.takeWhile (· != ':')
  let bucket := (m.Source.dropWhile (· != ':')).drop 1
  if m.Source.count ':' = 1 ∧ name.count '{' ≤ 1 then
    some ⟨name.takeWhile (· != '{'), bucket, m.Mountpoint⟩
  else none

/-- The record the specification assigns to one entry of the mount table: that
of its source specifier when the filesystem type contains the marker `rclone`,
none otherwise. -/
def recordOf (m : mountinfo.Info) : Option Remote :=
  if strings.Contains m.FSType (str "rclone") then sourceRecord m else none

/-- A path element as `filepath.Clean` writes it: not empty, without separator. -/
def IsName (e : GoString) : Prop := e ≠ [] ∧ '/' ∉ e

/-- The part of the cleaned path `q` below the cleaned directory `m`: empty when
they are equal, what follows `m` and a separator otherwise (for the root `/`
what follows it, for the current directory `.` every relative `q`); `none`
when `q` is not at or below `m`. -/
def below (m q : GoString) : Option GoString :=
  if q = m then some []
  else if m = str "/" then
    if strings.HasPrefix q (str "/") then some (q.drop 1) else none
  else if m = str "." then
    if filepath.IsAbs q then none else some q
  else if strings.HasPrefix q (m ++ str "/") then some (q.drop (m.length + 1))
  else none

/-- The path `p` is the mountpoint `mp` or nested under it with no `..`
segment: after cleaning, `p` lies at or below `mp` and no element of the part
below is `..`. -/
def nestedUnder (mp p : GoString) : Bool :=
  match below (filepath.Clean mp) (filepath.Clean p) with
  | none => false
  | some rest => !(strings.Split rest '/').contains (str "..")

/-- A sample record: remote `r1`, bucket `bk`, mounted at `/mnt/remote1`. -/
def sampleRemote : Remote := ⟨str "r1", str "bk", str "/mnt/remote1"⟩

/-- A sample record mounted below `sampleRemote`. -/
def sampleInner : Remote := ⟨str "r2", str "in", str "/mnt/remote1/sub"⟩

/-- A sample record whose mountpoint carries a trailing separator. -/
def sampleTrailing : Remote := ⟨str "r", str "b", str "/mnt/a/"⟩

/-- A sample record whose mountpoint carries doubled separators. -/
def sampleDoubled : Remote := ⟨str "r", str "b", str "/mnt///a"⟩

/-- A sample configuration environment: a configuration file holding `sampleRemote`. -/
def sampleConfigEnv : ConfigEnv where
  userConfigDir := .ok (str "/home/u/.config")
  openFile := fun _ => .ok (str "remotes: ...")
  decode := fun _ => .ok (some ⟨[sampleRemote]⟩)

/-- A sample configuration environment without a configuration file. -/
def sampleNoConfigEnv : ConfigEnv where
  userConfigDir := .ok (str "/home/u/.config")
  openFile := fun _ => .error ⟨str "no such file or directory", true⟩
  decode := fun _ => .error (str "EOF")

/-- A sample mount table. -/
def sampleTable : List mountinfo.Info :=
  [⟨str "/mnt/a", str "fuse.rclone", str "r1{abc}:bucket"⟩,
   ⟨str "/", str "ext4", str "/dev/sda"⟩,
   ⟨str "/mnt/b", str "fuse.rclone", str "r2:b:c"⟩,
   ⟨str "/mnt/c", str "fuse.rclone", str "r3:data"⟩]

/-- The outcome of the confirmation prompt of `promptui` (`IsConfirm`): the
answer `y` when the user confirms, its abort error, whose message is empty,
when the user declines. -/
def promptOutcome (confirmed : Bool) : Except GoString GoString :=
  if confirmed then .ok (str "y") else .error []

/-- A sample world: `/local/file.txt` is a file, `/mnt/remote1/bucket/existing-dir`
a directory, nothing else exists; the user confirms the prompt or not. -/
def sampleWorld (confirmed : Bool) : World where
  getwd := .ok (str "/home/u")
  stat := fun p =>
    if p = str "/local/file.txt" then .info false
    else if p = str "/mnt/remote1/bucket/existing-dir" then .info true
    else .err ⟨str "no such file or directory", true⟩
  prompt := promptOutcome confirmed
  mkdirAll := fun _ => none
  start := fun _ => none
  wait := none

/-- A sample world for the overwrite conflict: `/local/file.txt` is a file,
`/local/dir` and `/mnt/remote1/dir` are directories that each hold a directory
named `file.txt`; the user confirms the prompt or not. -/
def conflictWorld (confirmed : Bool) : World where
  getwd := .ok (str "/home/u")
  stat := fun p =>
    if p = str "/local/file.txt" then .info false
    else if p = str "/local/dir" ∨ p = str "/local/dir/file.txt" then .info true
    else if p = str "/mnt/remote1/dir" ∨ p = str "/mnt/remote1/dir/file.txt" then .info true
    else .err ⟨str "no such file or directory", true⟩
  prompt := promptOutcome confirmed
  mkdirAll := fun _ => none
  start := fun _ => none
  wait := none

/-- A sample world for an upload into a missing directory: `/local/file.txt` is
a file and nothing else exists; the user confirms the prompt or not, and the
transfer fails when `fails` is set. -/
def uploadWorld (confirmed : Bool) (fails : Bool) : World where
  getwd := .ok (str "/home/u")
  stat := fun p =>
    if p = str "/local/file.txt" then .info false
    else .err ⟨str "no such file or directory", true⟩
  prompt := promptOutcome confirmed
  mkdirAll := fun _ => none
  start := fun _ => none
  wait := if fails then some (str "exit status 1") else none

/-! ## Path resolution: first match -/

theorem remotePath_cons_of_not_sub (path : GoString) (remote : Remote) (remotes : List Remote)
    (h : isSubFolderOk remote.Mountpoint path = false) :
    remotePath path (remote :: remotes) = remotePath path remotes := by
  simp [remotePath, h]

theorem remotePath_cons_of_sub (path : GoString) (remote : Remote) (remotes : List Remote)
    (h : isSubFolderOk remote.Mountpoint path = true) :
    remotePath path (remote :: remotes) = remotePath path [remote] := by
  simp [remotePath, h]

/-- C3: resolution is first-match in registry order.  When `r` is the earliest
record of the registry whose mountpoint passes the containment test for `p`,
`remotePath p registry` is `remotePath p [r]`, whatever follows `r`. -/
theorem remotePath_first_match (p : GoString) (pre post : List Remote) (r : Remote)
    (hpre : ∀ q ∈ pre, isSubFolderOk q.Mountpoint p = false)
    (hr : isSubFolderOk r.Mountpoint p = true) :
    remotePath p (pre ++ r :: post) = remotePath p [r] := by
  induction pre with
  | nil => exact remotePath_cons_of_sub p r post hr
  | cons q pre ih =>
    have hq : isSubFolderOk q.Mountpoint p = false := hpre q (List.mem_cons_self q pre)
    have hrest : ∀ x ∈ pre, isSubFolderOk x.Mountpoint p = false :=
      fun x hx => hpre x (List.mem_cons_of_mem q hx)
    rw [List.cons_append, remotePath_cons_of_not_sub p q _ hq]
    exact ih hrest

/-- C3 at a concrete input: the outer mount listed first wins over the more
specific inner mount listed second. -/
theorem remotePath_first_match_witness :
    remotePath (str "/mnt/remote1/sub/f") ([] ++ sampleRemote :: [sampleInner]) =
        remotePath (str "/mnt/remote1/sub/f") [sampleRemote] ∧
      remotePath (str "/mnt/remote1/sub/f") [sampleRemote, sampleInner] =
        some (str "r1:bk/sub/f", true) ∧
      remotePath (str "/mnt/remote1/sub/f") [sampleInner, sampleRemote] =
        some (str "r2:in/f", true) :=
  ⟨remotePath_first_match (str "/mnt/remote1/sub/f") [] [sampleInner] sampleRemote
      (by simp) (by decide), by decide, by decide⟩

/-! ## Path resolution: the slice bound -/

/-- C10 fails on the code: with the mountpoint `/mnt/a/` (trailing separator)
and the path `/mnt/a`, `isSubFolder` answers true, the mountpoint is longer
than the path, and the slice in `remotePath` is out of range. -/
theorem remotePath_slice_out_of_range :
    isSubFolder sampleTrailing.Mountpoint (str "/mnt/a") = .ok true ∧
      (str "/mnt/a").length < sampleTrailing.Mountpoint.length ∧
      remotePath (str "/mnt/a") [sampleTrailing] = none :=
  ⟨by rfl, by decide, by decide⟩

/-! ## Registry assembly -/

/-- C5: the registry is the persisted records followed by the discovered
ones; without a configuration file it is the discovered list. -/
theorem GetMounts_persisted_then_discovered (table : List mountinfo.Info) (env : ConfigEnv)
    (configDir : GoString) (hdir : env.userConfigDir = .ok configDir) :
    (∀ file cfg, env.openFile (configFile configDir) = .ok file →
        env.decode file = .ok (some cfg) →
        GetMounts (.ok table) env = .ok (cfg.Remotes ++ discover table)) ∧
      (∀ e, env.openFile (configFile configDir) = .error e → e.notExist = true →
        GetMounts (.ok table) env = .ok (discover table)) := by
  constructor
  · intro file cfg hopen hdec
    simp [GetMounts, ReadConfig, hdir, configFile] at *
    simp [hopen, hdec]
  · intro e hopen hne
    simp [GetMounts, ReadConfig, hdir, configFile] at *
    simp [hopen, hne]

/-- C5 at concrete inputs: one persisted record ahead of the two discovered ones,
and the discovered ones alone when the file does not exist. -/
theorem GetMounts_persisted_then_discovered_witness :
    GetMounts (.ok sampleTable) sampleConfigEnv =
        .ok ([sampleRemote] ++ discover sampleTable) ∧
      GetMounts (.ok sampleTable) sampleNoConfigEnv = .ok (discover sampleTable) :=
  ⟨(GetMounts_persisted_then_discovered sampleTable sampleConfigEnv (str "/home/u/.config")
      rfl).1 (str "remotes: ...") ⟨[sampleRemote]⟩ rfl rfl,
   (GetMounts_persisted_then_discovered sampleTable sampleNoConfigEnv (str "/home/u/.config")
      rfl).2 ⟨str "no such file or directory", true⟩ rfl rfl⟩

/-! ## Copy orchestration: validation -/

/-- C6: when validation fails nothing is dispatched.  Equal absolutized paths
abort with the "nothing to do" error; otherwise, when neither path resolves to
a remote, the command aborts with the "use cp" error.  The trace is empty. -/
theorem copyRemote_validation (w : World) (parallel : Int) (source dest d s : GoString)
    (remotes : List Remote) (hs : filepath.Abs w.getwd source = .ok s) :
    (s = d → copyRemote w parallel source dest d remotes =
        ⟨[], some (errorExit (str "Nothing to do as '%s' and '%s' are the same")
          [source, dest])⟩) ∧
      (s ≠ d → ∀ sRemote dRemote, remotePath s remotes = some (sRemote, false) →
        remotePath d remotes = some (dRemote, false) →
        copyRemote w parallel source dest d remotes =
          ⟨[], some (errorExit (str "Recommended to use the 'cp' command") [])⟩) := by
  constructor
  · intro h
    simp [copyRemote, hs, h]
  · intro h sRemote dRemote h1 h2
    simp [copyRemote, hs, h, h1, h2]

/-- C6 at concrete inputs: a path copied onto itself, and a local-to-local copy. -/
theorem copyRemote_validation_witness :
    copyRemote (sampleWorld true) 6 (str "/local/file.txt") (str "/local/file.txt")
        (str "/local/file.txt") [sampleRemote] =
        ⟨[], some (errorExit (str "Nothing to do as '%s' and '%s' are the same")
          [str "/local/file.txt", str "/local/file.txt"])⟩ ∧
      copyRemote (sampleWorld true) 6 (str "/local/file.txt") (str "/tmp/out")
        (str "/tmp/out") [sampleRemote] =
        ⟨[], some (errorExit (str "Recommended to use the 'cp' command") [])⟩ :=
  ⟨(copyRemote_validation (sampleWorld true) 6 (str "/local/file.txt") (str "/local/file.txt")
      (str "/local/file.txt") (str "/local/file.txt") [sampleRemote] (by rfl)).1 rfl,
   (copyRemote_validation (sampleWorld true) 6 (str "/local/file.txt") (str "/tmp/out")
      (str "/tmp/out") (str "/local/file.txt") [sampleRemote] (by rfl)).2 (by decide)
      (str "/local/file.txt") (str "/tmp/out") (by decide) (by decide)⟩

/-! ## Copy orchestration: shape reconciliation and dispatch -/

theorem dispatch_start (w : World) (parallel : Int) (sRemote dRemote name : GoString)
    (args : List GoString)
    (h : Event.start name args ∈ (dispatch w parallel sRemote dRemote).trace) :
    name = str "rclone" ∧ args = [str "copyto", sRemote, dRemote,
      str "--transfers=" ++ fmtInt parallel, str "--checkers=" ++ fmtInt parallel, str "-P"] := by
  simp only [dispatch] at h
  generalize w.start _ = st at h
  generalize w.wait = wt at h
  cases st <;> cases wt <;> simpa using h

theorem dispatch_no_mkdir (w : World) (parallel : Int) (sRemote dRemote p : GoString) :
    Event.mkdirAll p ∉ (dispatch w parallel sRemote dRemote).trace := by
  simp only [dispatch]
  generalize w.start _ = st
  generalize w.wait = wt
  cases st <;> cases wt <;> simp

theorem shapeDest_start (w : World) (stat : GoString → Stat) (parallel : Int)
    (source s d sRemote dRemote name : GoString) (sIsDir : Bool) (args : List GoString)
    (h : Event.start name args ∈
      (shapeDest w stat parallel source s d sRemote dRemote sIsDir true).trace) :
    args.getD 2 [] = dRemote ++ str "/" ++ (if sIsDir then [] else filepath.Base s) := by
  unfold shapeDest at h
  cases sIsDir with
  | true =>
    simp at h
    have h2 := (dispatch_start _ _ _ _ _ _ h).2
    simp [h2]
  | false =>
    simp at h
    split at h
    · simp at h
    · have h2 := (dispatch_start _ _ _ _ _ _ h).2
      simp [h2]

theorem shapeDest_no_mkdir (w : World) (stat : GoString → Stat) (parallel : Int)
    (source s d sRemote dRemote p : GoString) (sIsDir destDir : Bool) :
    Event.mkdirAll p ∉
      (shapeDest w stat parallel source s d sRemote dRemote sIsDir destDir).trace := by
  cases destDir <;> cases sIsDir <;> simp only [shapeDest] <;>
    first
      | exact dispatch_no_mkdir _ _ _ _ _
      | (simp only [Bool.not_false, if_true]
         split
         · simp
         · exact dispatch_no_mkdir _ _ _ _ _)

theorem shapeDest_conflict (w : World) (stat : GoString → Stat) (parallel : Int)
    (source s d sRemote dRemote : GoString)
    (hsub : stat (filepath.Join [d, filepath.Base s]) = Stat.info true) :
    shapeDest w stat parallel source s d sRemote dRemote false true =
      ⟨[], some (errorExit (str "cannot overwrite directory '%s' with file '%s'")
        [filepath.Join [d, filepath.Base s], source])⟩ := by
  simp [shapeDest, hsub]

theorem reconcile_start_dir (w : World) (parallel : Int)
    (source dest s d sRemote dRemote name : GoString) (sIsDir : Bool) (args : List GoString)
    (hstat : w.stat s = Stat.info sIsDir)
    (hdir : w.stat d = Stat.info true ∨
      ∃ e, w.stat d = Stat.err e ∧ e.notExist = true ∧ strings.HasSuffix dest (str "/") = true)
    (h : Event.start name args ∈ (reconcile w parallel source dest s d sRemote dRemote).trace) :
    args.getD 2 [] = dRemote ++ str "/" ++ (if sIsDir then [] else filepath.Base s) ∧
      (w.stat d ≠ Stat.info true →
        Event.mkdirAll d ∈ (reconcile w parallel source dest s d sRemote dRemote).trace) := by
  unfold reconcile at h ⊢
  rw [hstat] at h ⊢
  simp only at h ⊢
  split at h
  · simp at h
  · rename_i hfile
    rw [if_neg hfile]
    rcases hdir with hd | ⟨e, hd, hne, hsuf⟩
    · rw [hd] at h ⊢
      simp only at h ⊢
      simp at h ⊢
      simpa using shapeDest_start _ _ _ _ _ _ _ _ _ _ _ h
    · rw [hd] at h ⊢
      simp only [hne, hsuf, if_true] at h ⊢
      split at h
      · simp at h
      · simp at h ⊢
        simpa using shapeDest_start _ _ _ _ _ _ _ _ _ _ _ h

theorem confirm_trace (w : World) (dOk : Bool) :
    (confirm w dOk).1 = if dOk then [Event.prompt] else [] := by
  unfold confirm
  cases dOk with
  | false => simp
  | true =>
    simp only [if_true]
    cases w.prompt with
    | error err => rfl
    | ok result => by_cases hc : strings.Contains (str "nN") result = true <;> simp [hc]

/-- Every run of `copyRemote` either has no effect at all, or passed validation
and consists of the confirmation followed, when it is not declined, by the
reconciliation of `s` and `d`. -/
theorem copyRemote_cases (w : World) (parallel : Int) (source dest d : GoString)
    (remotes : List Remote) :
    ((copyRemote w parallel source dest d remotes).trace = [] ∧
        (copyRemote w parallel source dest d remotes).exit ≠ none) ∨
      ∃ s sRemote sOk dRemote dOk,
        filepath.Abs w.getwd source = .ok s ∧ s ≠ d ∧
        remotePath s remotes = some (sRemote, sOk) ∧
        remotePath d remotes = some (dRemote, dOk) ∧ (sOk = true ∨ dOk = true) ∧
        ((∃ e, (confirm w dOk).2 = some e ∧
            copyRemote w parallel source dest d remotes = ⟨(confirm w dOk).1, some e⟩) ∨
          ((confirm w dOk).2 = none ∧
            copyRemote w parallel source dest d remotes =
              ⟨(confirm w dOk).1 ++
                (reconcile w parallel source dest s d sRemote dRemote).trace,
               (reconcile w parallel source dest s d sRemote dRemote).exit⟩)) := by
  unfold copyRemote
  cases hs : filepath.Abs w.getwd source with
  | error err => left; simp
  | ok s =>
    simp only
    by_cases hsd : s = d
    · left; simp [hsd]
    · rw [if_neg hsd]
      cases h1 : remotePath s remotes with
      | none => left; simp
      | some r1 =>
        obtain ⟨sRemote, sOk⟩ := r1
        simp only
        cases h2 : remotePath d remotes with
        | none => left; simp
        | some r2 =>
          obtain ⟨dRemote, dOk⟩ := r2
          simp only
          by_cases hv : (!sOk && !dOk) = true
          · left; simp [hv]
          · rw [if_neg hv]
            right
            refine ⟨s, sRemote, sOk, dRemote, dOk, rfl, hsd, h1, rfl, ?_, ?_⟩
            · cases sOk <;> cases dOk <;> simp at hv ⊢
            · cases hc : confirm w dOk with
              | mk tr ex =>
                cases ex with
                | none => right; simp
                | some e => left; exact ⟨e, by simp⟩

theorem copyRemote_validated (w : World) (parallel : Int) (source dest d s sRemote dRemote : GoString)
    (remotes : List Remote) (sOk dOk : Bool)
    (hs : filepath.Abs w.getwd source = .ok s) (hsd : s ≠ d)
    (h1 : remotePath s remotes = some (sRemote, sOk))
    (h2 : remotePath d remotes = some (dRemote, dOk))
    (hrem : sOk = true ∨ dOk = true)
    (hgo : (confirm w dOk).2 = none) :
    copyRemote w parallel source dest d remotes =
      ⟨(confirm w dOk).1 ++ (reconcile w parallel source dest s d sRemote dRemote).trace,
       (reconcile w parallel source dest s d sRemote dRemote).exit⟩ := by
  have hv : ¬ ((!sOk && !dOk) = true) := by
    rcases hrem with h | h <;> simp [h]
  unfold copyRemote
  simp only [hs, if_neg hsd, h1, h2, if_neg hv]
  cases hc : confirm w dOk with
  | mk tr ex =>
    rw [hc] at hgo
    simp only at hgo
    subst hgo
    rfl

/-- C7: in a copy that reaches dispatch with a directory as destination (an
existing directory, or a missing one whose argument ends with a separator and
which was therefore created), the destination argument of the transfer is the
resolved destination identifier, a separator, and, for a single-file source
only, the base name of the source. -/
theorem copyRemote_directory_destination (w : World) (parallel : Int)
    (source dest d s dRemote name : GoString) (remotes : List Remote) (dOk sIsDir : Bool)
    (args : List GoString)
    (hs : filepath.Abs w.getwd source = .ok s)
    (hd : remotePath d remotes = some (dRemote, dOk))
    (hstat : w.stat s = Stat.info sIsDir)
    (hdir : w.stat d = Stat.info true ∨
      ∃ e, w.stat d = Stat.err e ∧ e.notExist = true ∧ strings.HasSuffix dest (str "/") = true)
    (hrun : Event.start name args ∈ (copyRemote w parallel source dest d remotes).trace) :
    args.getD 2 [] = dRemote ++ str "/" ++ (if sIsDir then [] else filepath.Base s) ∧
      (w.stat d ≠ Stat.info true →
        Event.mkdirAll d ∈ (copyRemote w parallel source dest d remotes).trace) := by
  rcases copyRemote_cases w parallel source dest d remotes with ⟨h0, hex⟩ | h
  · rw [h0] at hrun; simp at hrun
  · obtain ⟨s2, sRemote, sOk, dRemote2, dOk2, hs2, _, _, hd2, _, hc⟩ := h
    rw [hs] at hs2
    rw [hd] at hd2
    cases hs2
    cases hd2
    rcases hc with ⟨e, _, hrw⟩ | ⟨_, hrw⟩
    · rw [hrw, confirm_trace] at hrun
      cases dOk <;> simp at hrun
    · rw [hrw] at hrun ⊢
      simp only [List.mem_append, confirm_trace] at hrun ⊢
      have hrec : Event.start name args ∈
          (reconcile w parallel source dest s d sRemote dRemote).trace := by
        rcases hrun with hp | hr
        · cases dOk <;> simp at hp
        · exact hr
      have := reconcile_start_dir w parallel source dest s d sRemote dRemote name sIsDir args
        hstat hdir hrec
      exact ⟨this.1, fun hne => Or.inr (this.2 hne)⟩

/-- C7 at the scenario of the specification: the file `/local/file.txt` copied
into the existing directory `/mnt/remote1/bucket/existing-dir`. -/
theorem copyRemote_directory_destination_witness :
    (copyRemote (sampleWorld true) 6 (str "/local/file.txt")
        (str "/mnt/remote1/bucket/existing-dir") (str "/mnt/remote1/bucket/existing-dir")
        [sampleRemote]).trace =
      [Event.prompt,
       Event.start (str "rclone") [str "copyto", str "/local/file.txt",
         str "r1:bk/bucket/existing-dir/file.txt", str "--transfers=6", str "--checkers=6",
         str "-P"],
       Event.wait] ∧
    (str "r1:bk/bucket/existing-dir/file.txt" =
      str "r1:bk/bucket/existing-dir" ++ str "/" ++
        (if false then [] else filepath.Base (str "/local/file.txt"))) :=
  ⟨by decide,
   (copyRemote_directory_destination (sampleWorld true) 6 (str "/local/file.txt")
      (str "/mnt/remote1/bucket/existing-dir") (str "/mnt/remote1/bucket/existing-dir")
      (str "/local/file.txt") (str "r1:bk/bucket/existing-dir") (str "rclone") [sampleRemote]
      true false
      [str "copyto", str "/local/file.txt", str "r1:bk/bucket/existing-dir/file.txt",
        str "--transfers=6", str "--checkers=6", str "-P"]
      (by rfl) (by decide) (by decide) (Or.inl (by decide)) (by decide)).1⟩

theorem reconcile_conflict (w : World) (parallel : Int)
    (source dest s d sRemote dRemote : GoString)
    (hfile : w.stat s = Stat.info false)
    (hsuf : strings.HasSuffix source (str "/") = false)
    (hdir : w.stat d = Stat.info true)
    (hsub : w.stat (filepath.Join [d, filepath.Base s]) = Stat.info true) :
    reconcile w parallel source dest s d sRemote dRemote =
      ⟨[], some (errorExit (str "cannot overwrite directory '%s' with file '%s'")
        [filepath.Join [d, filepath.Base s], source])⟩ := by
  unfold reconcile
  rw [hfile]
  simp only [hsuf, hdir]
  simp [shapeDest_conflict _ _ _ _ _ _ _ _ hsub]

theorem reconcile_file_no_start (w : World) (parallel : Int)
    (source dest s d sRemote dRemote name : GoString) (args : List GoString)
    (hfile : w.stat s = Stat.info false)
    (hdir : w.stat d = Stat.info true)
    (hsub : w.stat (filepath.Join [d, filepath.Base s]) = Stat.info true) :
    Event.start name args ∉ (reconcile w parallel source dest s d sRemote dRemote).trace := by
  by_cases hsuf : strings.HasSuffix source (str "/") = true
  · unfold reconcile
    rw [hfile]
    simp [hsuf]
  · rw [reconcile_conflict w parallel source dest s d sRemote dRemote hfile
      (by simpa using hsuf) hdir hsub]
    simp

/-- C8 fails as stated.  In each of three copies the source is a single file,
the destination an existing directory, and the entry named like the source
below it a directory; yet a local-to-local copy ends with the "use cp" error,
a source argument with a trailing separator ends with the "is a file" error,
and a declined upload ends with the abort error of the prompt: none ends with
the overwrite error. -/
theorem copyRemote_overwrite_conflict_counter :
    ((conflictWorld true).stat (str "/local/file.txt") = Stat.info false ∧
      filepath.Abs (conflictWorld true).getwd (str "/local/file.txt/") =
        .ok (str "/local/file.txt") ∧
      (conflictWorld true).stat (str "/local/dir") = Stat.info true ∧
      (conflictWorld true).stat
        (filepath.Join [str "/local/dir", filepath.Base (str "/local/file.txt")]) =
          Stat.info true ∧
      (conflictWorld true).stat (str "/mnt/remote1/dir") = Stat.info true ∧
      (conflictWorld true).stat
        (filepath.Join [str "/mnt/remote1/dir", filepath.Base (str "/local/file.txt")]) =
          Stat.info true) ∧
    copyRemote (conflictWorld true) 6 (str "/local/file.txt") (str "/local/dir")
        (str "/local/dir") [sampleRemote] =
        ⟨[], some (errorExit (str "Recommended to use the 'cp' command") [])⟩ ∧
      copyRemote (conflictWorld true) 6 (str "/local/file.txt/") (str "/mnt/remote1/dir")
        (str "/mnt/remote1/dir") [sampleRemote] =
        ⟨[Event.prompt], some (errorExit (str "'%s' is a file, not a directory.")
          [str "/local/file.txt/"])⟩ ∧
      copyRemote (conflictWorld false) 6 (str "/local/file.txt") (str "/mnt/remote1/dir")
        (str "/mnt/remote1/dir") [sampleRemote] =
        ⟨[Event.prompt], some (errorExit [] [])⟩ := by
  refine ⟨⟨by decide, by rfl, by decide, by decide, by decide, by decide⟩,
    by decide, by decide, by decide⟩

/-- C8, amended: a single-file source, an existing directory as destination,
and below it a directory named like the source.  The transfer program is never
started.  When moreover the copy passes validation, an upload is confirmed and
the source argument has no trailing separator, the command aborts with the
"cannot overwrite directory with file" error. -/
theorem copyRemote_overwrite_conflict (w : World) (parallel : Int)
    (source dest d s : GoString) (remotes : List Remote)
    (hs : filepath.Abs w.getwd source = .ok s)
    (hfile : w.stat s = Stat.info false)
    (hdir : w.stat d = Stat.info true)
    (hsub : w.stat (filepath.Join [d, filepath.Base s]) = Stat.info true) :
    (∀ name args,
        Event.start name args ∉ (copyRemote w parallel source dest d remotes).trace) ∧
      (∀ sRemote sOk dRemote dOk, remotePath s remotes = some (sRemote, sOk) →
        remotePath d remotes = some (dRemote, dOk) → (sOk = true ∨ dOk = true) →
        (dOk = true → declined w = false) →
        strings.HasSuffix source (str "/") = false →
        (copyRemote w parallel source dest d remotes).exit =
          some (errorExit (str "cannot overwrite directory '%s' with file '%s'")
            [filepath.Join [d, filepath.Base s], source])) := by
  constructor
  · intro name args hmem
    rcases copyRemote_cases w parallel source dest d remotes with ⟨h0, hex⟩ | h
    · rw [h0] at hmem; simp at hmem
    · obtain ⟨s2, sRemote, sOk, dRemote, dOk, hs2, _, _, _, _, hc⟩ := h
      rw [hs] at hs2
      cases hs2
      rcases hc with ⟨e, _, hrw⟩ | ⟨_, hrw⟩
      · rw [hrw, confirm_trace] at hmem
        cases dOk <;> simp at hmem
      · rw [hrw] at hmem
        simp only [List.mem_append, confirm_trace] at hmem
        rcases hmem with hp | hr
        · cases dOk <;> simp at hp
        · exact reconcile_file_no_start w parallel source dest s d sRemote dRemote name args
            hfile hdir hsub hr
  · intro sRemote sOk dRemote dOk h1 h2 hrem hyes hsuf
    have hsd : s ≠ d := by
      intro h
      rw [h, hdir] at hfile
      cases hfile
    have hgo : (confirm w dOk).2 = none := by
      cases dOk with
      | false => simp [confirm]
      | true =>
        have := hyes rfl
        simpa [declined] using this
    rw [copyRemote_validated w parallel source dest d s sRemote dRemote remotes sOk dOk
      hs hsd h1 h2 hrem hgo]
    simp only
    rw [reconcile_conflict w parallel source dest s d sRemote dRemote hfile hsuf hdir hsub]

/-- C8, amended, at a concrete input: an upload of `/local/file.txt` into
`/mnt/remote1/dir`, which holds a directory `file.txt`. -/
theorem copyRemote_overwrite_conflict_witness :
    copyRemote (conflictWorld true) 6 (str "/local/file.txt") (str "/mnt/remote1/dir")
        (str "/mnt/remote1/dir") [sampleRemote] =
        ⟨[Event.prompt], some (errorExit (str "cannot overwrite directory '%s' with file '%s'")
          [str "/mnt/remote1/dir/file.txt", str "/local/file.txt"])⟩ ∧
      (copyRemote (conflictWorld true) 6 (str "/local/file.txt") (str "/mnt/remote1/dir")
        (str "/mnt/remote1/dir") [sampleRemote]).exit =
        some (errorExit (str "cannot overwrite directory '%s' with file '%s'")
          [filepath.Join [str "/mnt/remote1/dir", filepath.Base (str "/local/file.txt")],
            str "/local/file.txt"]) :=
  ⟨by decide,
   (copyRemote_overwrite_conflict (conflictWorld true) 6 (str "/local/file.txt")
      (str "/mnt/remote1/dir") (str "/mnt/remote1/dir") (str "/local/file.txt") [sampleRemote]
      (by rfl) (by decide) (by decide) (by decide)).2
      (str "/local/file.txt") false (str "r1:bk/dir") true (by decide) (by decide)
      (Or.inr rfl) (fun _ => by decide) (by decide)⟩

/-! ## Copy orchestration: confirmation comes before directory creation -/

theorem reconcile_mkdir_mem (w : World) (parallel : Int)
    (source dest s d sRemote dRemote p : GoString)
    (h : Event.mkdirAll p ∈ (reconcile w parallel source dest s d sRemote dRemote).trace) :
    p = d ∧ (∃ e, w.stat d = Stat.err e ∧ e.notExist = true) ∧
      strings.HasSuffix dest (str "/") = true := by
  unfold reconcile at h
  cases hst : w.stat s with
  | err e => rw [hst] at h; simp at h
  | info sIsDir =>
    rw [hst] at h
    simp only at h
    split at h
    · simp at h
    · cases hd : w.stat d with
      | info dIsDir =>
        rw [hd] at h
        simp only at h
        split at h
        · simp at h
        · split at h
          · simp at h
          · exact absurd h (shapeDest_no_mkdir _ _ _ _ _ _ _ _ _ _ _)
      | err e =>
        rw [hd] at h
        simp only at h
        by_cases hne : e.notExist = true
        · rw [if_pos hne] at h
          by_cases hsuf : strings.HasSuffix dest (str "/") = true
          · rw [if_pos hsuf] at h
            cases hmk : w.mkdirAll d with
            | some err =>
              rw [hmk] at h
              simp at h
              exact ⟨h, ⟨e, rfl, hne⟩, hsuf⟩
            | none =>
              rw [hmk] at h
              simp only [List.mem_cons, Event.mkdirAll.injEq] at h
              rcases h with h | h
              · exact ⟨h, ⟨e, rfl, hne⟩, hsuf⟩
              · exact absurd h (shapeDest_no_mkdir _ _ _ _ _ _ _ _ _ _ _)
          · rw [if_neg hsuf] at h
            exact absurd h (shapeDest_no_mkdir _ _ _ _ _ _ _ _ _ _ _)
        · rw [if_neg hne] at h
          simp at h

/-- C9 fails on the code: there is no upload in which a declined confirmation
leaves a created directory behind, because no run of a declined upload calls
`os.MkdirAll` at all. -/
theorem copyRemote_declined_mkdir_counter :
    ¬ ∃ (w : World) (parallel : Int) (source dest d dRemote p : GoString)
        (remotes : List Remote),
        remotePath d remotes = some (dRemote, true) ∧ declined w = true ∧
          Event.mkdirAll p ∈ (copyRemote w parallel source dest d remotes).trace := by
  rintro ⟨w, parallel, source, dest, d, dRemote, p, remotes, hd, hdecl, hmem⟩
  rcases copyRemote_cases w parallel source dest d remotes with ⟨h0, hex⟩ | h
  · rw [h0] at hmem; simp at hmem
  · obtain ⟨s, sRemote, sOk, dRemote2, dOk, _, _, _, hd2, _, hc⟩ := h
    rw [hd] at hd2
    cases hd2
    rcases hc with ⟨e, _, hrw⟩ | ⟨hgo, _⟩
    · rw [hrw, confirm_trace] at hmem
      simp at hmem
    · simp [declined, hgo] at hdecl

/-- C9, amended: in an upload the confirmation prompt comes before the creation
of the destination directory.  A declined confirmation aborts the command with
the prompt as its only effect, so no directory is created; and whenever
`os.MkdirAll` is called, the destination was missing with an argument ending in
a separator, the prompt came first and was not declined. -/
theorem copyRemote_prompt_before_mkdir (w : World) (parallel : Int)
    (source dest d dRemote : GoString) (remotes : List Remote)
    (hup : remotePath d remotes = some (dRemote, true)) :
    (declined w = true →
        ((copyRemote w parallel source dest d remotes).trace = [] ∨
          (copyRemote w parallel source dest d remotes).trace = [Event.prompt]) ∧
        (copyRemote w parallel source dest d remotes).exit ≠ none) ∧
      (∀ p, Event.mkdirAll p ∈ (copyRemote w parallel source dest d remotes).trace →
        declined w = false ∧ p = d ∧ strings.HasSuffix dest (str "/") = true ∧
        (∃ e, w.stat d = Stat.err e ∧ e.notExist = true) ∧
        ∃ rest, (copyRemote w parallel source dest d remotes).trace = Event.prompt :: rest ∧
          Event.mkdirAll p ∈ rest) := by
  rcases copyRemote_cases w parallel source dest d remotes with ⟨h0, hex⟩ | h
  · rw [h0]
    exact ⟨fun _ => ⟨Or.inl rfl, hex⟩, fun p hp => by simp at hp⟩
  · obtain ⟨s, sRemote, sOk, dRemote2, dOk, _, _, _, hd2, _, hc⟩ := h
    rw [hup] at hd2
    cases hd2
    rcases hc with ⟨e, hab, hrw⟩ | ⟨hgo, hrw⟩
    · rw [hrw, confirm_trace]
      refine ⟨fun _ => ⟨Or.inr rfl, by simp⟩, fun p hp => by simp at hp⟩
    · have hnd : declined w = false := by simp [declined, hgo]
      rw [hrw, confirm_trace]
      refine ⟨fun hdecl => (by rw [hnd] at hdecl; cases hdecl), ?_⟩
      intro p hp
      simp only [if_true, List.singleton_append, List.mem_cons] at hp
      rcases hp with hp | hp
      · cases hp
      · obtain ⟨hpd, hmiss, hsuf⟩ := reconcile_mkdir_mem _ _ _ _ _ _ _ _ _ hp
        exact ⟨hnd, hpd, hsuf, hmiss, _, rfl, hp⟩

/-- C9, amended, at concrete inputs: the upload of `/local/file.txt` to the
missing `/mnt/remote1/new/`.  Declined, the prompt is the only effect; accepted,
the directory is created after the prompt, and stays behind when the transfer
fails. -/
theorem copyRemote_prompt_before_mkdir_witness :
    (((copyRemote (uploadWorld false false) 6 (str "/local/file.txt") (str "/mnt/remote1/new/")
          (str "/mnt/remote1/new") [sampleRemote]).trace = [] ∨
        (copyRemote (uploadWorld false false) 6 (str "/local/file.txt") (str "/mnt/remote1/new/")
          (str "/mnt/remote1/new") [sampleRemote]).trace = [Event.prompt]) ∧
      (copyRemote (uploadWorld false false) 6 (str "/local/file.txt") (str "/mnt/remote1/new/")
        (str "/mnt/remote1/new") [sampleRemote]).exit ≠ none) ∧
    copyRemote (uploadWorld false false) 6 (str "/local/file.txt") (str "/mnt/remote1/new/")
        (str "/mnt/remote1/new") [sampleRemote] =
      ⟨[Event.prompt], some (errorExit [] [])⟩ ∧
    copyRemote (uploadWorld true true) 6 (str "/local/file.txt") (str "/mnt/remote1/new/")
        (str "/mnt/remote1/new") [sampleRemote] =
      ⟨[Event.prompt, Event.mkdirAll (str "/mnt/remote1/new"),
        Event.start (str "rclone") [str "copyto", str "/local/file.txt",
          str "r1:bk/new/file.txt", str "--transfers=6", str "--checkers=6", str "-P"],
        Event.wait],
       some (errorExit (str "%s") [str "exit status 1"])⟩ :=
  ⟨(copyRemote_prompt_before_mkdir (uploadWorld false false) 6 (str "/local/file.txt")
      (str "/mnt/remote1/new/") (str "/mnt/remote1/new") (str "r1:bk/new") [sampleRemote]
      (by decide)).1 (by decide),
   by decide, by decide⟩

/-! ## Mount discovery -/

theorem Split_nil (sep : Char) : strings.Split [] sep = [[]] := rfl

theorem Split_cons_sep (t : GoString) (sep : Char) :
    strings.Split (sep :: t) sep = [] :: strings.Split t sep := by
  rw [strings.Split, if_pos rfl]

theorem Split_cons_ne (c : Char) (t : GoString) (sep : Char) (h : c ≠ sep) :
    strings.Split (c :: t) sep =
      match strings.Split t sep with
      | [] => [[c]]
      | h :: r => (c :: h) :: r := by
  rw [strings.Split, if_neg h]

theorem Split_ne_nil (s : GoString) (sep : Char) : strings.Split s sep ≠ [] := by
  cases s with
  | nil => simp [Split_nil]
  | cons c t =>
    by_cases hc : c = sep
    · subst hc; simp [Split_cons_sep]
    · rw [Split_cons_ne c t sep hc]
      split <;> simp

/-- Splitting at the first separator: the piece before it, then the pieces of
what follows it. -/
theorem Split_eq (s : GoString) (sep : Char) :
    strings.Split s sep = s.takeWhile (· != sep) ::
      (match s.dropWhile (· != sep) with
       | [] => []
       | _ :: r => strings.Split r sep) := by
  induction s with
  | nil => simp [Split_nil]
  | cons c t ih =>
    by_cases hc : c = sep
    · subst hc; simp [Split_cons_sep]
    · rw [Split_cons_ne c t _ hc, ih]
      simp [List.takeWhile_cons, List.dropWhile_cons, hc]

theorem Split_length (s : GoString) (sep : Char) :
    (strings.Split s sep).length = s.count sep + 1 := by
  induction s with
  | nil => simp [Split_nil]
  | cons c t ih =>
    by_cases hc : c = sep
    · subst hc; simp [Split_cons_sep, ih]
    · rw [Split_cons_ne c t _ hc]
      have hne : (c == sep) = false := by simpa using hc
      rw [List.count_cons, hne]
      cases hsp : strings.Split t sep with
      | nil => exact absurd hsp (Split_ne_nil t sep)
      | cons h r =>
        rw [hsp] at ih
        simpa using ih

theorem Split_of_count_eq_zero (s : GoString) (sep : Char) (h : s.count sep = 0) :
    strings.Split s sep = [s] := by
  have hlen := Split_length s sep
  rw [h] at hlen
  rw [Split_eq] at hlen ⊢
  have hall : ∀ x ∈ s, (x != sep) = true := by
    intro x hx
    have : sep ∉ s := List.count_eq_zero.mp h
    simp only [bne_iff_ne, ne_eq]
    rintro rfl
    exact this hx
  rw [List.takeWhile_eq_self_iff.mpr hall, List.dropWhile_eq_nil_iff.mpr hall]

theorem count_takeWhile_add (s : GoString) (sep : Char) :
    s.count sep = (s.dropWhile (· != sep)).count sep := by
  induction s with
  | nil => rfl
  | cons c t ih =>
    by_cases hc : c = sep
    · simp [hc]
    · have hne2 : (c == sep) = false := by simpa using hc
      rw [List.count_cons, hne2, ih]
      simp [List.dropWhile_cons, hc]

/-- With exactly one separator, the split has the piece before it and the
piece after it. -/
theorem Split_of_count_eq_one (s : GoString) (sep : Char) (h : s.count sep = 1) :
    strings.Split s sep = [s.takeWhile (· != sep), (s.dropWhile (· != sep)).drop 1] := by
  rw [Split_eq]
  have hc := count_takeWhile_add s sep
  rw [h] at hc
  cases hd : s.dropWhile (· != sep) with
  | nil => rw [hd] at hc; simp at hc
  | cons x r =>
    have hx : x = sep := by
      have := List.head_dropWhile_not (· != sep) s (by rw [hd]; simp)
      simpa [hd] using this
    rw [hd, hx] at hc
    simp only [List.count_cons_self] at hc
    have hr : r.count sep = 0 := by omega
    simp [Split_of_count_eq_zero r sep hr]

theorem scan_mountFilter (table : List mountinfo.Info) :
    mountinfo.scan mountFilter table = table.filter (fun m => isRclone m.FSType) := by
  induction table with
  | nil => rfl
  | cons m rest ih =>
    by_cases h : isRclone m.FSType = true
    · simp [mountinfo.scan, mountFilter, h, ih]
    · simp [mountinfo.scan, mountFilter, h, ih]

theorem mountStep_eq (remotes : List Remote) (m : mountinfo.Info) :
    mountStep remotes m = remotes ++ (sourceRecord m).toList := by
  unfold mountStep sourceRecord
  simp only [Split_length]
  by_cases h1 : m.Source.count ':' = 1
  · have hss := Split_of_count_eq_one m.Source ':' h1
    simp only [h1, hss]
    by_cases h2 : (m.Source.takeWhile (· != ':')).count '{' ≤ 1
    · have hn0 : (strings.Split (m.Source.takeWhile (· != ':')) '{').getD 0 [] =
          (m.Source.takeWhile (· != ':')).takeWhile (· != '{') := by
        rw [Split_eq]; rfl
      by_cases h3 : (m.Source.takeWhile (· != ':')).count '{' = 1
      · simp [h3]
        rw [Split_eq]; simp
      · have h0 : (m.Source.takeWhile (· != ':')).count '{' = 0 := by omega
        have hall : ∀ x ∈ m.Source.takeWhile (· != ':'), (x != '{') = true := by
          intro x hx
          have hnot : '{' ∉ m.Source.takeWhile (· != ':') := List.count_eq_zero.mp h0
          simp only [bne_iff_ne, ne_eq]
          rintro rfl
          exact hnot hx
        simp [h0, List.takeWhile_eq_self_iff.mpr hall]
    · have : ¬ (m.Source.takeWhile (· != ':')).count '{' + 1 ≤ 2 := by omega
      simp [h2, this]
  · simp [h1]

theorem foldl_mountStep (acc : List Remote) (l : List mountinfo.Info) :
    l.foldl mountStep acc = acc ++ l.filterMap sourceRecord := by
  induction l generalizing acc with
  | nil => simp
  | cons m rest ih =>
    rw [List.foldl_cons, ih, mountStep_eq]
    cases h : sourceRecord m <;> simp [List.filterMap_cons, h]

theorem recordOf_isSome_iff (m : mountinfo.Info) :
    (recordOf m).isSome = true ↔
      (strings.Contains m.FSType (str "rclone") = true ∧
        (strings.Split m.Source ':').length = 2 ∧
        (strings.Split ((strings.Split m.Source ':').getD 0 []) '{').length ≤ 2) := by
  have hname : (strings.Split m.Source ':').getD 0 [] = m.Source.takeWhile (· != ':') := by
    rw [Split_eq]; simp
  rw [hname, Split_length, Split_length]
  unfold recordOf sourceRecord
  by_cases h1 : strings.Contains m.FSType (str "rclone") = true
  · by_cases h2 : m.Source.count ':' = 1
    · by_cases h3 : (m.Source.takeWhile (· != ':')).count '{' ≤ 1
      · simp [h1, h2, h3]
      · simp [h1, h2, h3]
    · simp [h1, h2]
  · simp [h1]

/-- C4: mount discovery yields, in listing order, exactly the records of the
entries whose filesystem type contains `rclone`, whose source splits on `:`
into exactly two parts and whose name (the first part) splits on `{` into at
most two parts; the record has the entry's mountpoint, the second part as
bucket and the name cut before its `{` as name.  Every other entry yields
nothing. -/
theorem discover_eq_filterMap (table : List mountinfo.Info) :
    discover table = table.filterMap recordOf ∧
      (∀ m, (recordOf m).isSome = true ↔
        (strings.Contains m.FSType (str "rclone") = true ∧
          (strings.Split m.Source ':').length = 2 ∧
          (strings.Split ((strings.Split m.Source ':').getD 0 []) '{').length ≤ 2)) ∧
      (∀ m r, recordOf m = some r →
        r.Mountpoint = m.Mountpoint ∧ r.Bucket = (strings.Split m.Source ':').getD 1 [] ∧
        r.Name = ((strings.Split m.Source ':').getD 0 []).takeWhile (· != '{')) := by
  refine ⟨?_, recordOf_isSome_iff, ?_⟩
  · unfold discover
    rw [foldl_mountStep, scan_mountFilter, List.nil_append, List.filterMap_filter]
    rfl
  · intro m r hr
    unfold recordOf sourceRecord at hr
    split at hr
    · simp only at hr
      by_cases hc : m.Source.count ':' = 1 ∧ (m.Source.takeWhile (· != ':')).count '{' ≤ 1
      · rw [if_pos hc] at hr
        simp only [Option.some.injEq] at hr
        rw [Split_of_count_eq_one m.Source ':' hc.1, ← hr]
        simp
      · rw [if_neg hc] at hr
        cases hr
    · cases hr

/-- C4 at a concrete mount table: a decorated name, a local disk, a source with
two `:` and a plain remote. -/
theorem discover_eq_filterMap_witness :
    discover sampleTable = sampleTable.filterMap recordOf ∧
      discover sampleTable =
        [⟨str "r1", str "bucket", str "/mnt/a"⟩, ⟨str "r3", str "data", str "/mnt/c"⟩] :=
  ⟨(discover_eq_filterMap sampleTable).1, by decide⟩

/-! ## Facts about `strings` -/

theorem str_slash : str "/" = ['/'] := rfl

theorem str_dot : str "." = ['.'] := rfl

theorem str_dotdot : str ".." = ['.', '.'] := rfl

theorem str_slashslash : str "//" = ['/', '/'] := rfl

theorem Contains_cons_of_Contains (c : Char) (t sub : GoString)
    (h : strings.Contains t sub = true) : strings.Contains (c :: t) sub = true := by
  simp [strings.Contains, h]

theorem Contains_append_left (sub b : GoString) : strings.Contains (sub ++ b) sub = true := by
  cases h : sub ++ b with
  | nil =>
    have : sub = [] := (List.append_eq_nil.mp h).1
    simp [strings.Contains, this]
  | cons c t =>
    rw [strings.Contains, ← h]
    simp

/-- An occurrence of `sub` inside a string is found by `strings.Contains`. -/
theorem Contains_append (a sub b : GoString) : strings.Contains (a ++ sub ++ b) sub = true := by
  induction a with
  | nil => simpa using Contains_append_left sub b
  | cons c a ih => exact Contains_cons_of_Contains c _ sub ih

theorem Split_no_sep (s : GoString) (sep : Char) : ∀ e ∈ strings.Split s sep, sep ∉ e := by
  induction s with
  | nil => simp [Split_nil]
  | cons c t ih =>
    by_cases hc : c = sep
    · subst hc
      rw [Split_cons_sep]
      intro e he
      rcases List.mem_cons.mp he with h | h
      · simp [h]
      · exact ih e h
    · rw [Split_cons_ne c t sep hc]
      cases hsp : strings.Split t sep with
      | nil => simp; exact fun h => hc h.symm
      | cons h r =>
        rw [hsp] at ih
        intro e he
        rcases List.mem_cons.mp he with h1 | h1
        · rw [h1]
          have := ih h (List.mem_cons_self h r)
          simp only [List.mem_cons, not_or]
          exact ⟨fun h2 => hc h2.symm, this⟩
        · exact ih e (List.mem_cons_of_mem h h1)

/-- Every piece of a split occurs in the string. -/
theorem Split_mem_infix (s : GoString) (sep : Char) :
    ∀ e ∈ strings.Split s sep, ∃ a b, s = a ++ e ++ b := by
  induction s with
  | nil =>
    intro e he
    simp [Split_nil] at he
    exact ⟨[], [], by simp [he]⟩
  | cons c t ih =>
    by_cases hc : c = sep
    · subst hc
      rw [Split_cons_sep]
      intro e he
      rcases List.mem_cons.mp he with h | h
      · exact ⟨[], c :: t, by simp [h]⟩
      · obtain ⟨a, b, hab⟩ := ih e h
        exact ⟨c :: a, b, by simp [hab]⟩
    · rw [Split_cons_ne c t sep hc]
      cases hsp : strings.Split t sep with
      | nil => exact absurd hsp (Split_ne_nil t sep)
      | cons h r =>
        rw [hsp] at ih
        intro e he
        rcases List.mem_cons.mp he with h1 | h1
        · have := Split_eq t sep
          rw [hsp] at this
          have h2 : h = t.takeWhile (· != sep) := (List.cons.inj this).1
          have h3 := List.takeWhile_append_dropWhile (· != sep) t
          rw [← h2] at h3
          exact ⟨[], t.dropWhile (· != sep), by rw [h1]; simp [h3]⟩
        · obtain ⟨a, b, hab⟩ := ih e (List.mem_cons_of_mem h h1)
          exact ⟨c :: a, b, by simp [hab]⟩

theorem Contains_of_mem_Split (s e : GoString) (sep : Char) (h : e ∈ strings.Split s sep) :
    strings.Contains s e = true := by
  obtain ⟨a, b, hab⟩ := Split_mem_infix s sep e h
  rw [hab]
  exact Contains_append a e b

/-! ## Facts about `filepath.Clean` -/

theorem IsName_dotdot : IsName (str "..") := by
  constructor <;> simp [str_dotdot]

theorem cleanStep_names (rooted : Bool) (out : List GoString) (e : GoString)
    (hout : ∀ x ∈ out, IsName x) (he : '/' ∉ e) :
    ∀ x ∈ filepath.cleanStep rooted out e, IsName x := by
  unfold filepath.cleanStep
  split
  · exact hout
  · rename_i hne
    split
    · exact hout
    · split
      · split
        · exact fun x hx => hout x (List.dropLast_subset out hx)
        · split
          · intro x hx
            rcases List.mem_append.mp hx with h | h
            · exact hout x h
            · rw [List.mem_singleton.mp h]; exact IsName_dotdot
          · exact hout
      · intro x hx
        rcases List.mem_append.mp hx with h | h
        · exact hout x h
        · rw [List.mem_singleton.mp h]; exact ⟨hne, he⟩

theorem foldl_cleanStep_names (rooted : Bool) (es : List GoString) (out : List GoString)
    (hout : ∀ x ∈ out, IsName x) (hes : ∀ e ∈ es, '/' ∉ e) :
    ∀ x ∈ es.foldl (filepath.cleanStep rooted) out, IsName x := by
  induction es generalizing out with
  | nil => exact hout
  | cons e rest ih =>
    rw [List.foldl_cons]
    exact ih _ (cleanStep_names rooted out e hout (hes e (List.mem_cons_self e rest)))
      (fun x hx => hes x (List.mem_cons_of_mem e hx))

theorem cleanElems_names (path : GoString) : ∀ x ∈ filepath.cleanElems path, IsName x :=
  foldl_cleanStep_names _ _ [] (by simp) (Split_no_sep path '/')

theorem Join_cons_cons (e e2 : GoString) (rest : List GoString) (sep : GoString) :
    strings.Join (e :: e2 :: rest) sep = e ++ sep ++ strings.Join (e2 :: rest) sep := rfl

theorem Join_singleton (e : GoString) (sep : GoString) : strings.Join [e] sep = e := rfl

/-- A joined list of names starts with a byte other than the separator. -/
theorem Join_names_head (es : List GoString) (hes : ∀ x ∈ es, IsName x) (hne : es ≠ []) :
    ∃ c t, strings.Join es (str "/") = c :: t ∧ c ≠ '/' := by
  cases es with
  | nil => exact absurd rfl hne
  | cons e rest =>
    obtain ⟨h1, h2⟩ := hes e (List.mem_cons_self e rest)
    cases e with
    | nil => exact absurd rfl h1
    | cons c t =>
      have hc : c ≠ '/' := fun h => h2 (by simp [h])
      cases rest with
      | nil => exact ⟨c, t, rfl, hc⟩
      | cons e2 rest2 => exact ⟨c, _, by rw [Join_cons_cons]; rfl, hc⟩

/-- A joined list of names does not end with the separator. -/
theorem Join_names_getLast (es : List GoString) (hes : ∀ x ∈ es, IsName x) :
    (strings.Join es (str "/")).getLast? ≠ some '/' := by
  induction es with
  | nil => simp [strings.Join]
  | cons e rest ih =>
    obtain ⟨h1, h2⟩ := hes e (List.mem_cons_self e rest)
    cases rest with
    | nil =>
      rw [Join_singleton]
      intro h
      exact h2 (List.mem_of_getLast?_eq_some h)
    | cons e2 rest2 =>
      have ih2 := ih (fun x hx => hes x (List.mem_cons_of_mem e hx))
      obtain ⟨c, t, hj, _⟩ := Join_names_head (e2 :: rest2)
        (fun x hx => hes x (List.mem_cons_of_mem e hx)) (by simp)
      rw [Join_cons_cons, List.getLast?_append]
      rw [hj] at ih2 ⊢
      cases hl : (c :: t).getLast? with
      | none => simp at hl
      | some l =>
        rw [hl] at ih2
        simpa using ih2

theorem Contains_slashslash_cons (c : Char) (t : GoString) (hc : c ≠ '/') :
    strings.Contains (c :: t) (str "//") = strings.Contains t (str "//") := by
  have hc2 : ¬ '/' = c := fun h => hc h.symm
  simp [strings.Contains, str_slashslash, List.isPrefixOf, hc2]

theorem Contains_slashslash_append (e t : GoString) (he : '/' ∉ e) :
    strings.Contains (e ++ t) (str "//") = strings.Contains t (str "//") := by
  induction e with
  | nil => rfl
  | cons c e ih =>
    have hc : c ≠ '/' := fun h => he (by simp [h])
    rw [List.cons_append, Contains_slashslash_cons c _ hc]
    exact ih (fun h => he (List.mem_cons_of_mem c h))

theorem Contains_slashslash_slash (c : Char) (t : GoString) (hc : c ≠ '/') :
    strings.Contains ('/' :: c :: t) (str "//") = strings.Contains (c :: t) (str "//") := by
  have hc2 : ¬ '/' = c := fun h => hc h.symm
  simp [strings.Contains, str_slashslash, List.isPrefixOf, hc2]

/-- A joined list of names has no doubled separator. -/
theorem Join_names_no_double (es : List GoString) (hes : ∀ x ∈ es, IsName x) :
    strings.Contains (strings.Join es (str "/")) (str "//") = false := by
  induction es with
  | nil => rfl
  | cons e rest ih =>
    obtain ⟨_, h2⟩ := hes e (List.mem_cons_self e rest)
    cases rest with
    | nil =>
      rw [Join_singleton]
      have := Contains_slashslash_append e [] h2
      rw [List.append_nil] at this
      rw [this]; rfl
    | cons e2 rest2 =>
      have ih2 := ih (fun x hx => hes x (List.mem_cons_of_mem e hx))
      obtain ⟨c, t, hj, hc⟩ := Join_names_head (e2 :: rest2)
        (fun x hx => hes x (List.mem_cons_of_mem e hx)) (by simp)
      rw [Join_cons_cons, List.append_assoc, Contains_slashslash_append e _ h2, hj, str_slash,
        List.singleton_append, Contains_slashslash_slash c t hc, ← hj]
      exact ih2

/-- The shape of a cleaned path: `.`, or an optional leading separator followed
by names joined by separators. -/
theorem Clean_shape (path : GoString) :
    filepath.Clean path = str "." ∨
      ∃ es, (∀ x ∈ es, IsName x) ∧
        ((filepath.Clean path = '/' :: strings.Join es (str "/")) ∨
         (es ≠ [] ∧ filepath.Clean path = strings.Join es (str "/"))) := by
  unfold filepath.Clean
  by_cases hp : path = []
  · left; simp [hp]
  · rw [if_neg hp]
    simp only
    by_cases hab : filepath.IsAbs path = true
    · right
      refine ⟨filepath.cleanElems path, cleanElems_names path, Or.inl ?_⟩
      simp [hab, str_slash]
    · simp only [hab, if_false, List.nil_append]
      by_cases hj : strings.Join (filepath.cleanElems path) (str "/") = []
      · left; simp [hj]
      · right
        refine ⟨filepath.cleanElems path, cleanElems_names path, Or.inr ⟨?_, ?_⟩⟩
        · intro h; rw [h] at hj; exact hj rfl
        · simp [hj]

theorem Clean_ne_nil (path : GoString) : filepath.Clean path ≠ [] := by
  rcases Clean_shape path with h | ⟨es, hes, h | ⟨hne, h⟩⟩
  · rw [h]; simp [str_dot]
  · rw [h]; simp
  · rw [h]
    obtain ⟨c, t, hj, _⟩ := Join_names_head es hes hne
    rw [hj]; simp

/-- A cleaned path ends with a separator only when it is the root. -/
theorem Clean_getLast (path : GoString) :
    filepath.Clean path = str "/" ∨ (filepath.Clean path).getLast? ≠ some '/' := by
  rcases Clean_shape path with h | ⟨es, hes, h | ⟨hne, h⟩⟩
  · right; rw [h]; simp [str_dot]
  · cases es with
    | nil => left; rw [h]; rfl
    | cons e rest =>
      right
      rw [h]
      obtain ⟨c, t, hj, _⟩ := Join_names_head (e :: rest) hes (by simp)
      have hl := Join_names_getLast (e :: rest) hes
      rw [hj] at hl ⊢
      rw [List.getLast?_cons_cons]
      exact hl
  · right; rw [h]; exact Join_names_getLast es hes

/-- A cleaned path has no doubled separator. -/
theorem Clean_no_double (path : GoString) :
    strings.Contains (filepath.Clean path) (str "//") = false := by
  rcases Clean_shape path with h | ⟨es, hes, h | ⟨hne, h⟩⟩
  · rw [h]; rfl
  · rw [h]
    cases es with
    | nil => rfl
    | cons e rest =>
      obtain ⟨c, t, hj, hc⟩ := Join_names_head (e :: rest) hes (by simp)
      rw [hj, Contains_slashslash_slash c t hc, ← hj]
      exact Join_names_no_double _ hes
  · rw [h]; exact Join_names_no_double es hes

/-! ## Facts about the scanning loop of `filepath.Rel` -/

theorem takeWhile_name (e : GoString) (he : '/' ∉ e) : e.takeWhile (· != '/') = e := by
  apply List.takeWhile_eq_self_iff.mpr
  intro x hx
  simp only [bne_iff_ne, ne_eq]
  rintro rfl
  exact he hx

theorem takeWhile_name_append (e x : GoString) (he : '/' ∉ e) :
    (e ++ '/' :: x).takeWhile (· != '/') = e := by
  induction e with
  | nil => simp
  | cons c e ih =>
    have hc : c ≠ '/' := fun h => he (by simp [h])
    have := ih (fun h => he (List.mem_cons_of_mem c h))
    simp [List.takeWhile_cons, hc, this]

/-- A string is a first element without separator, alone or followed by a
separator and the rest. -/
theorem first_element (b : GoString) :
    ∃ e, '/' ∉ e ∧ b.takeWhile (· != '/') = e ∧
      ((b = e ∧ b.drop (e.length + 1) = []) ∨
        ∃ r, b = e ++ '/' :: r ∧ b.drop (e.length + 1) = r) := by
  induction b with
  | nil => exact ⟨[], by simp, rfl, Or.inl ⟨rfl, rfl⟩⟩
  | cons c t ih =>
    by_cases hc : c = '/'
    · subst hc
      exact ⟨[], by simp, by simp, Or.inr ⟨t, rfl, by simp⟩⟩
    · obtain ⟨e, he, htw, hcase⟩ := ih
      refine ⟨c :: e, ?_, ?_, ?_⟩
      · simp only [List.mem_cons, not_or]
        exact ⟨fun h => hc h.symm, he⟩
      · simp [List.takeWhile_cons, hc, htw]
      · rcases hcase with ⟨h1, h2⟩ | ⟨r, h1, h2⟩
        · left
          constructor
          · rw [← h1]
          · simpa using h2
        · right
          refine ⟨r, ?_, ?_⟩
          · rw [List.cons_append, ← h1]
          · simpa using h2

theorem relLoop_nil (fuel : Nat) (t : GoString) : filepath.relLoop fuel [] t = ([], [], t) := by
  cases fuel <;> simp [filepath.relLoop]

theorem relLoop_step (fuel : Nat) (b t : GoString) (hb : b ≠ []) (ht : t ≠ []) :
    filepath.relLoop (fuel + 1) b t =
      if t.takeWhile (· != '/') ≠ b.takeWhile (· != '/') then (b.takeWhile (· != '/'), b, t)
      else filepath.relLoop fuel (b.drop ((b.takeWhile (· != '/')).length + 1))
        (t.drop ((t.takeWhile (· != '/')).length + 1)) := by
  rw [filepath.relLoop]
  simp [hb, ht]

theorem relLoop_targ_nil (fuel : Nat) (b : GoString) :
    filepath.relLoop fuel b [] = ([], b, []) := by
  cases fuel <;> simp [filepath.relLoop]

theorem drop_first_element_length (b : GoString) (hb : b ≠ []) :
    (b.drop ((b.takeWhile (· != '/')).length + 1)).length < b.length := by
  rw [List.length_drop]
  have : 0 < b.length := List.length_pos.mpr hb
  omega

/-- The loop of `filepath.Rel` never runs out of fuel: any two amounts above
the length of the base give the same result. -/
theorem relLoop_fuel (fuel1 fuel2 : Nat) (b t : GoString) (h1 : b.length < fuel1)
    (h2 : b.length < fuel2) : filepath.relLoop fuel1 b t = filepath.relLoop fuel2 b t := by
  induction fuel1 generalizing fuel2 b t with
  | zero => omega
  | succ fuel1 ih =>
    cases fuel2 with
    | zero => omega
    | succ fuel2 =>
      by_cases hb : b = []
      · rw [hb, relLoop_nil, relLoop_nil]
      · by_cases ht : t = []
        · rw [ht, relLoop_targ_nil, relLoop_targ_nil]
        · rw [relLoop_step fuel1 b t hb ht, relLoop_step fuel2 b t hb ht]
          split
          · rfl
          · have hlt := drop_first_element_length b hb
            exact ih fuel2 _ _ (by omega) (by omega)

theorem getLast?_append_slash_cons (e r : GoString) (c : Char) :
    (e ++ '/' :: c :: r).getLast? = (c :: r).getLast? := by
  rw [List.getLast?_append]
  simp only [List.getLast?_cons_cons]
  cases h : (c :: r).getLast? with
  | none => simp at h
  | some l => simp

/-- The loop consumes the whole base when the target is the base, a separator
and a remainder. -/
theorem relLoop_below (fuel : Nat) (b rest : GoString) (hfuel : b.length < fuel)
    (hb : b ≠ []) (hlast : b.getLast? ≠ some '/') :
    filepath.relLoop fuel b (b ++ '/' :: rest) = ([], [], rest) := by
  induction fuel generalizing b with
  | zero => omega
  | succ fuel ih =>
    rw [relLoop_step fuel b _ hb (by simp)]
    obtain ⟨e, he, htw, hcase⟩ := first_element b
    rcases hcase with ⟨h1, h2⟩ | ⟨r, h1, h2⟩
    · have htw2 : (b ++ '/' :: rest).takeWhile (· != '/') = e := by
        rw [h1]; exact takeWhile_name_append e rest he
      rw [htw2, htw, h2]
      simp only [ne_eq, not_true_eq_false, if_false]
      have : (b ++ '/' :: rest).drop (e.length + 1) = rest := by
        rw [h1]; simp
      rw [this, relLoop_nil]
    · have htw2 : (b ++ '/' :: rest).takeWhile (· != '/') = e := by
        rw [h1, List.append_assoc]; exact takeWhile_name_append e _ he
      rw [htw2, htw, h2]
      simp only [ne_eq, not_true_eq_false, if_false]
      have hd : (b ++ '/' :: rest).drop (e.length + 1) = r ++ '/' :: rest := by
        rw [h1]; simp
      rw [hd]
      cases r with
      | nil =>
        exfalso
        apply hlast
        rw [h1]; simp
      | cons c r =>
        apply ih
        · rw [h1] at hfuel
          simp at hfuel ⊢
          omega
        · simp
        · rw [h1, getLast?_append_slash_cons] at hlast
          exact hlast

theorem relLoop_root (fuel : Nat) (rest : GoString) :
    filepath.relLoop (fuel + 1) ['/'] ('/' :: rest) = ([], [], rest) := by
  rw [relLoop_step fuel _ _ (by simp) (by simp)]
  simp [relLoop_nil]

/-- When the loop consumes the whole base, the target is the base, or the base
followed by a separator and what the loop leaves of the target. -/
theorem relLoop_consumed (fuel : Nat) (b t0 cur t : GoString) (hfuel : b.length < fuel)
    (hb : b ≠ []) (hlast : b.getLast? ≠ some '/')
    (h : filepath.relLoop fuel b t0 = (cur, [], t)) :
    t0 = b ++ '/' :: t ∨ (t0 = b ∧ t = []) := by
  induction fuel generalizing b t0 with
  | zero => omega
  | succ fuel ih =>
    by_cases ht0 : t0 = []
    · rw [ht0, relLoop_targ_nil] at h
      simp only [Prod.mk.injEq] at h
      exact absurd h.2.1 hb
    · rw [relLoop_step fuel b t0 hb ht0] at h
      split at h
      · simp only [Prod.mk.injEq] at h
        exact absurd h.2.1 hb
      · rename_i heq
        simp only [ne_eq, not_not] at heq
        obtain ⟨e, he, htw, hcase⟩ := first_element b
        obtain ⟨e2, _, htw2, hcase2⟩ := first_element t0
        have he2 : e2 = e := by rw [← htw2, ← htw, heq]
        subst he2
        rw [htw, htw2] at h
        rcases hcase with ⟨h1, h2⟩ | ⟨r, h1, h2⟩
        · rw [h2, relLoop_nil] at h
          simp only [Prod.mk.injEq, true_and] at h
          rcases hcase2 with ⟨g1, g2⟩ | ⟨r2, g1, g2⟩
          · right
            rw [g2] at h
            exact ⟨by rw [g1, ← h1], h.2.symm⟩
          · left
            rw [g2] at h
            rw [g1, ← h.2, ← h1]
        · rw [h2] at h
          cases r with
          | nil =>
            exfalso
            apply hlast
            rw [h1]; simp
          | cons c r =>
            have hlen : (c :: r).length < fuel := by
              rw [h1] at hfuel
              simp at hfuel ⊢
              omega
            have hl2 : (c :: r).getLast? ≠ some '/' := by
              rw [h1, getLast?_append_slash_cons] at hlast
              exact hlast
            rcases hcase2 with ⟨g1, g2⟩ | ⟨r2, g1, g2⟩
            · rw [g2] at h
              rcases ih (c :: r) [] hlen (by simp) hl2 h with h3 | ⟨h3, _⟩
              · simp at h3
              · simp at h3
            · rw [g2] at h
              rcases ih (c :: r) r2 hlen (by simp) hl2 h with h3 | ⟨h3, h4⟩
              · left
                rw [g1, h3, h1]
                simp
              · right
                exact ⟨by rw [g1, h3, h1], h4⟩

theorem relLoop_root_consumed (fuel : Nat) (t0 cur t : GoString)
    (h : filepath.relLoop (fuel + 1) ['/'] t0 = (cur, [], t)) : t0 = '/' :: t := by
  cases t0 with
  | nil =>
    rw [relLoop_targ_nil] at h
    simp at h
  | cons c t1 =>
    rw [relLoop_step fuel _ _ (by simp) (by simp)] at h
    by_cases hc : c = '/'
    · subst hc
      simp [relLoop_nil] at h
      rw [h.2]
    · simp [List.takeWhile_cons, hc] at h

/-! ## The containment test -/

theorem isSubFolderOk_eq (mp p : GoString) :
    isSubFolderOk mp p =
      match filepath.Rel mp p with
      | .error _ => false
      | .ok relPath => !filepath.IsAbs relPath && !strings.Contains relPath (str "..") := by
  unfold isSubFolderOk isSubFolder
  cases filepath.Rel mp p <;> rfl

theorem not_contains_dotdot_segment (t : GoString)
    (h : strings.Contains t (str "..") = false) :
    (strings.Split t '/').contains (str "..") = false := by
  cases hc : (strings.Split t '/').contains (str "..") with
  | false => rfl
  | true =>
    have hmem : str ".." ∈ strings.Split t '/' := by simpa using hc
    rw [Contains_of_mem_Split t _ '/' hmem] at h
    cases h

/-- A result of `filepath.Rel` free of `..`: either the cleaned paths are
equal and the result is `.`, or the loop consumed the whole base and the result
is what it left of the target. -/
theorem Rel_ok_cases (mp p relPath : GoString) (h : filepath.Rel mp p = .ok relPath)
    (hdd : strings.Contains relPath (str "..") = false) :
    filepath.Clean p = filepath.Clean mp ∨
      (filepath.Clean p ≠ filepath.Clean mp ∧
        filepath.IsAbs (if filepath.Clean mp = str "." then [] else filepath.Clean mp) =
          filepath.IsAbs (filepath.Clean p) ∧
        ∃ cur, filepath.relLoop
          ((if filepath.Clean mp = str "." then [] else filepath.Clean mp).length + 1)
          (if filepath.Clean mp = str "." then [] else filepath.Clean mp) (filepath.Clean p) =
            (cur, [], relPath)) := by
  unfold filepath.Rel at h
  simp only at h
  by_cases hqm : filepath.Clean p = filepath.Clean mp
  · exact Or.inl hqm
  · right
    rw [if_neg hqm] at h
    by_cases habs : (filepath.IsAbs (if filepath.Clean mp = str "." then []
        else filepath.Clean mp) != filepath.IsAbs (filepath.Clean p)) = true
    · rw [if_pos habs] at h; cases h
    · rw [if_neg habs] at h
      refine ⟨hqm, by simpa using habs, ?_⟩
      generalize filepath.relLoop _ _ _ = res at h
      obtain ⟨cur, b, t⟩ := res
      simp only at h
      by_cases hcur : cur = str ".."
      · rw [if_pos hcur] at h; cases h
      · rw [if_neg hcur] at h
        by_cases hb : b ≠ []
        · rw [if_pos hb] at h
          exfalso
          have hc := Contains_append [] (str "..")
            ((List.replicate (strings.Count b '/') (str "/..")).flatten ++
              (if t ≠ [] then str "/" ++ t else []))
          simp only [List.nil_append] at hc
          simp only [Except.ok.injEq] at h
          rw [← h, List.append_assoc, hc] at hdd
          cases hdd
        · rw [if_neg hb] at h
          simp only [ne_eq, not_not] at hb
          simp only [Except.ok.injEq] at h
          exact ⟨cur, by rw [hb, h]⟩

/-- When the loop of `filepath.Rel` leaves base elements over, the containment
test fails, whether `Rel` then answers an error or a path that starts with
`..`: no statement about `remotePath` depends on which of the two it is. -/
theorem isSubFolderOk_false_of_base_left (mp p cur b t : GoString)
    (hne : filepath.Clean p ≠ filepath.Clean mp)
    (hrl : filepath.relLoop
      ((if filepath.Clean mp = str "." then [] else filepath.Clean mp).length + 1)
      (if filepath.Clean mp = str "." then [] else filepath.Clean mp) (filepath.Clean p) =
        (cur, b, t))
    (hb : b ≠ []) : isSubFolderOk mp p = false := by
  cases hs : isSubFolderOk mp p with
  | false => rfl
  | true =>
    exfalso
    rw [isSubFolderOk_eq] at hs
    cases hrel : filepath.Rel mp p with
    | error e => rw [hrel] at hs; cases hs
    | ok r =>
      rw [hrel] at hs
      simp only [Bool.and_eq_true, Bool.not_eq_true'] at hs
      rcases Rel_ok_cases mp p r hrel hs.2 with h | ⟨_, _, cur2, h⟩
      · exact hne h
      · rw [hrl] at h
        simp only [Prod.mk.injEq] at h
        exact hb h.2.1

/-- Whenever the containment test of `remotePath` succeeds, the path is the
mountpoint or nested under it with no `..` segment. -/
theorem nestedUnder_of_isSubFolderOk (mp p : GoString) (h : isSubFolderOk mp p = true) :
    nestedUnder mp p = true := by
  rw [isSubFolderOk_eq] at h
  cases hrel : filepath.Rel mp p with
  | error e => rw [hrel] at h; cases h
  | ok t =>
    rw [hrel] at h
    simp only [Bool.and_eq_true, Bool.not_eq_true'] at h
    obtain ⟨htabs, htdd⟩ := h
    have hseg : str ".." ∉ strings.Split t '/' := by
      simpa using not_contains_dotdot_segment t htdd
    have hnil : str ".." ∉ strings.Split [] '/' := by simp [Split_nil, str_dotdot]
    unfold nestedUnder
    rcases Rel_ok_cases mp p t hrel htdd with hqm | ⟨hqm, habs, cur, hrl⟩
    · simp [below, hqm, Split_nil, str_dotdot]
    · generalize hm : filepath.Clean mp = m at hqm habs hrl ⊢
      generalize hq : filepath.Clean p = q at hqm habs hrl ⊢
      by_cases hdot : m = str "."
      · subst hdot
        simp only [if_true] at hrl habs
        rw [relLoop_nil] at hrl
        simp only [Prod.mk.injEq, true_and] at hrl
        have hqt : q = t := hrl.2
        subst hqt
        have hne : ¬ str "." = str "/" := by decide
        simp only [below, hqm, hne, htabs, if_false]
        simp [hseg]
      · simp only [hdot, if_false] at hrl
        by_cases hroot : m = str "/"
        · subst hroot
          have := relLoop_root_consumed _ q cur t hrl
          subst this
          simp only [below, hqm, if_false, if_true]
          simp [str_slash, strings.HasPrefix, hseg]
        · have hlast : m.getLast? ≠ some '/' := by
            rcases Clean_getLast mp with h1 | h1
            · rw [hm] at h1; exact absurd h1 hroot
            · rw [hm] at h1; exact h1
          have hmne : m ≠ [] := by rw [← hm]; exact Clean_ne_nil mp
          rcases relLoop_consumed _ m q cur t (Nat.lt_succ_self _) hmne hlast hrl
            with h1 | ⟨h1, _⟩
          · subst h1
            have hpre : strings.HasPrefix (m ++ '/' :: t) (m ++ str "/") = true := by
              simp [strings.HasPrefix, str_slash]
            simp only [below, hqm, hdot, hroot, hpre, if_false, if_true]
            simp [hseg]
          · exact absurd h1 hqm

/-- C2: a path that is neither the mountpoint of a record of the registry nor
nested under one is returned unchanged, with `matched = false`. -/
theorem remotePath_unmatched (p : GoString) (registry : List Remote)
    (h : ∀ r ∈ registry, nestedUnder r.Mountpoint p = false) :
    remotePath p registry = some (p, false) := by
  induction registry with
  | nil => rfl
  | cons r rest ih =>
    have hr : isSubFolderOk r.Mountpoint p = false := by
      cases hs : isSubFolderOk r.Mountpoint p with
      | false => rfl
      | true =>
        have := nestedUnder_of_isSubFolderOk r.Mountpoint p hs
        rw [h r (List.mem_cons_self r rest)] at this
        cases this
    rw [remotePath_cons_of_not_sub p r rest hr]
    exact ih (fun x hx => h x (List.mem_cons_of_mem r hx))

/-- C2 at a concrete input: a local path against two remote records. -/
theorem remotePath_unmatched_witness :
    remotePath (str "/local/file.txt") [sampleRemote, sampleInner] =
      some (str "/local/file.txt", false) :=
  remotePath_unmatched (str "/local/file.txt") [sampleRemote, sampleInner] (by decide)

/-! ## Resolution of a cleaned path under a cleaned mountpoint -/

theorem HasPrefix_slash_cons_ne (c : Char) (t : GoString) (h : c ≠ '/') :
    strings.HasPrefix (c :: t) (str "/") = false := by
  have h2 : ¬ '/' = c := fun h3 => h h3.symm
  simp [strings.HasPrefix, str_slash, List.isPrefixOf, h2]

theorem HasSuffix_slash_iff (s : GoString) :
    strings.HasSuffix s (str "/") = true ↔ s.getLast? = some '/' := by
  unfold strings.HasSuffix
  rw [List.isSuffixOf_iff_suffix, str_slash, List.getLast?_eq_some_iff]
  constructor
  · rintro ⟨t, ht⟩; exact ⟨t, ht.symm⟩
  · rintro ⟨t, ht⟩; exact ⟨t, ht.symm⟩

theorem TrimSuffix_append_slash (x : GoString) :
    strings.TrimSuffix (x ++ str "/") (str "/") = x := by
  have h : strings.HasSuffix (x ++ str "/") (str "/") = true := by
    rw [HasSuffix_slash_iff, str_slash]; simp
  rw [strings.TrimSuffix, if_pos h]
  simp [str_slash]

theorem TrimSuffix_of_not_slash (s : GoString) (h : s.getLast? ≠ some '/') :
    strings.TrimSuffix s (str "/") = s := by
  have h2 : strings.HasSuffix s (str "/") = false := by
    cases hs : strings.HasSuffix s (str "/") with
    | false => rfl
    | true => exact absurd ((HasSuffix_slash_iff s).mp hs) h
  simp [strings.TrimSuffix, h2]

theorem not_double_of_clean (p a b : GoString) (hp : filepath.Clean p = p)
    (h : p = a ++ '/' :: '/' :: b) : False := by
  have h1 := Clean_no_double p
  rw [hp, h] at h1
  have h2 := Contains_append a (str "//") b
  rw [str_slashslash] at h2
  simp only [List.append_assoc, List.cons_append, List.nil_append] at h2
  rw [str_slashslash, h2] at h1
  cases h1

theorem isSubFolderOk_of_Rel (mp p t : GoString) (h : filepath.Rel mp p = .ok t)
    (habs : filepath.IsAbs t = false) (hdd : strings.Contains t (str "..") = false) :
    isSubFolderOk mp p = true := by
  rw [isSubFolderOk_eq, h]
  simp [habs, hdd]

theorem Rel_of_loop (mp p cur rest : GoString) (hm : filepath.Clean mp = mp)
    (hp : filepath.Clean p = p) (hne : p ≠ mp) (hdot : mp ≠ str ".")
    (habs : filepath.IsAbs mp = filepath.IsAbs p) (hcur : cur ≠ str "..")
    (hrl : filepath.relLoop (mp.length + 1) mp p = (cur, [], rest)) :
    filepath.Rel mp p = .ok rest := by
  unfold filepath.Rel
  simp only [hm, hp, if_neg hne, if_neg hdot, hrl, habs, bne_self_eq_false, if_neg hcur]
  simp

/-- The resolution facts for a cleaned absolute mountpoint `mp` and a cleaned
path `p` at or below it, `rest` being the part of `p` below `mp`. -/
theorem below_clean (mp p rest : GoString) (hm : filepath.Clean mp = mp)
    (habs : filepath.IsAbs mp = true) (hp : filepath.Clean p = p)
    (hb : below mp p = some rest) (hdd : strings.Contains rest (str "..") = false) :
    isSubFolderOk mp p = true ∧ mp.length ≤ p.length ∧
      strings.TrimPrefix (p.drop mp.length) (str "/") = rest ∧
      strings.HasPrefix rest (str "/") = false ∧
      (rest ≠ [] → rest.getLast? ≠ some '/') := by
  have hmdot : mp ≠ str "." := by
    intro h; rw [h] at habs; cases habs
  unfold below at hb
  by_cases hpm : p = mp
  · rw [if_pos hpm] at hb
    simp only [Option.some.injEq] at hb
    subst hb
    subst hpm
    refine ⟨?_, le_refl _, by simp [strings.TrimPrefix, strings.HasPrefix, str_slash],
      by simp [strings.HasPrefix, str_slash], fun h => absurd rfl h⟩
    apply isSubFolderOk_of_Rel p p (str ".")
    · unfold filepath.Rel; simp
    · rfl
    · rfl
  · rw [if_neg hpm] at hb
    by_cases hroot : mp = str "/"
    · rw [if_pos hroot] at hb
      subst hroot
      cases p with
      | nil => simp [strings.HasPrefix, str_slash] at hb
      | cons c t =>
        by_cases hc : c = '/'
        · subst hc
          simp [strings.HasPrefix, str_slash] at hb
          subst hb
          have hpre : strings.HasPrefix t (str "/") = false := by
            cases t with
            | nil => simp [strings.HasPrefix, str_slash]
            | cons c2 t2 =>
              by_cases hc2 : c2 = '/'
              · subst hc2
                exact (not_double_of_clean _ [] t2 hp rfl).elim
              · exact HasPrefix_slash_cons_ne c2 t2 hc2
          refine ⟨?_, by simp [str_slash], ?_, hpre, ?_⟩
          · apply isSubFolderOk_of_Rel _ _ t
            · exact Rel_of_loop _ _ [] t hm hp hpm hmdot (by simp [filepath.IsAbs, strings.HasPrefix, str_slash])
                (by simp [str_dotdot]) (relLoop_root _ t)
            · exact hpre
            · exact hdd
          · simp only [str_slash, List.length_singleton, List.drop_succ_cons, List.drop_zero]
            rw [← str_slash]
            simp [strings.TrimPrefix, hpre]
          · intro htne
            rcases Clean_getLast ('/' :: t) with h1 | h1
            · rw [hp, str_slash] at h1
              simp at h1
              exact absurd h1 htne
            · rw [hp] at h1
              cases t with
              | nil => exact absurd rfl htne
              | cons c2 t2 => rw [List.getLast?_cons_cons] at h1; exact h1
        · simp [strings.HasPrefix, str_slash] at hb
          exact absurd hb.1.symm hc
    · rw [if_neg hroot, if_neg hmdot] at hb
      by_cases hpre : strings.HasPrefix p (mp ++ str "/") = true
      · rw [if_pos hpre] at hb
        simp only [Option.some.injEq] at hb
        have hpeq : p = mp ++ '/' :: rest := by
          unfold strings.HasPrefix at hpre
          rw [List.isPrefixOf_iff_prefix] at hpre
          obtain ⟨x, hx⟩ := hpre
          rw [← hx] at hb
          rw [← hx, ← hb]
          simp [str_slash]
        have hmne : mp ≠ [] := by
          intro h; rw [h] at habs; cases habs
        have hlast : mp.getLast? ≠ some '/' := by
          rcases Clean_getLast mp with h1 | h1
          · rw [hm] at h1; exact absurd h1 hroot
          · rw [hm] at h1; exact h1
        have hrest : strings.HasPrefix rest (str "/") = false := by
          cases rest with
          | nil => simp [strings.HasPrefix, str_slash]
          | cons c2 t2 =>
            by_cases hc2 : c2 = '/'
            · subst hc2
              exact (not_double_of_clean _ mp t2 hp hpeq).elim
            · exact HasPrefix_slash_cons_ne c2 t2 hc2
        have hpabs : filepath.IsAbs p = true := by
          cases mp with
          | nil => exact absurd rfl hmne
          | cons c m2 =>
            rw [hpeq]
            simpa [filepath.IsAbs, strings.HasPrefix, str_slash] using habs
        refine ⟨?_, by rw [hpeq]; simp, ?_, hrest, ?_⟩
        · apply isSubFolderOk_of_Rel _ _ rest
          · apply Rel_of_loop _ _ [] rest hm hp hpm hmdot (by rw [habs, hpabs])
              (by simp [str_dotdot])
            rw [hpeq]
            exact relLoop_below _ mp rest (Nat.lt_succ_self _) hmne hlast
          · exact hrest
          · exact hdd
        · rw [hpeq]
          simp [strings.TrimPrefix, strings.HasPrefix, str_slash]
        · intro htne
          rcases Clean_getLast p with h1 | h1
          · exfalso
            rw [hp, hpeq, str_slash] at h1
            cases mp with
            | nil => exact hmne rfl
            | cons c m2 => simp at h1
          · rw [hp, hpeq, List.getLast?_append] at h1
            cases rest with
            | nil => exact absurd rfl htne
            | cons c2 t2 =>
              rw [List.getLast?_cons_cons] at h1
              cases hl : (c2 :: t2).getLast? with
              | none => simp at hl
              | some l =>
                rw [hl] at h1
                simpa using h1
      · rw [if_neg hpre] at hb
        cases hb

/-- C1 fails on the code.  The path `/mnt/remote1/a..b` is nested under the
mountpoint `/mnt/remote1` and its remainder `a..b` has no `..` segment, yet
`isSubFolder` answers false, because it looks for `..` anywhere in the relative
path, and `remotePath` returns the path unmatched instead of `r1:bk/a..b`.
And with the mountpoint `/mnt///a`, the remainder of `/mnt/a/xy/z` is `xy/z`
but the suffix of the identifier is `y/z`, because the slice takes the length
of the mountpoint as written. -/
theorem remotePath_nested_code :
    (nestedUnder sampleRemote.Mountpoint (str "/mnt/remote1/a..b") = true ∧
      below sampleRemote.Mountpoint (str "/mnt/remote1/a..b") = some (str "a..b") ∧
      (strings.Split (str "a..b") '/').contains (str "..") = false ∧
      isSubFolder sampleRemote.Mountpoint (str "/mnt/remote1/a..b") = .ok false ∧
      remotePath (str "/mnt/remote1/a..b") [sampleRemote] =
        some (str "/mnt/remote1/a..b", false)) ∧
    (nestedUnder sampleDoubled.Mountpoint (str "/mnt/a/xy/z") = true ∧
      below (filepath.Clean sampleDoubled.Mountpoint) (str "/mnt/a/xy/z") =
        some (str "xy/z") ∧
      remotePath (str "/mnt/a/xy/z") [sampleDoubled] = some (str "r:b/y/z", true)) := by
  refine ⟨⟨by decide, by decide, by decide, by rfl, by decide⟩,
    ⟨by decide, by decide, by decide⟩⟩

/-- Where `remotePath` does resolve a nested path: for a record whose
mountpoint is a cleaned absolute path and a cleaned path `p` that is the
mountpoint or lies below it, with a remainder `rest` in which `isSubFolder`
finds no `..`, `remotePath p [r]` is matched; the identifier is
`Name:Bucket/rest` when `p` is below the mountpoint, with no leading separator
on `rest` and no trailing separator on the identifier, and `Name:Bucket` when
`p` is the mountpoint. -/
theorem remotePath_nested_clean (r : Remote) (p rest : GoString)
    (hm : filepath.Clean r.Mountpoint = r.Mountpoint)
    (habs : filepath.IsAbs r.Mountpoint = true)
    (hp : filepath.Clean p = p)
    (hb : below r.Mountpoint p = some rest)
    (hdd : strings.Contains rest (str "..") = false) :
    remotePath p [r] =
        some (if rest = [] then r.Name ++ str ":" ++ r.Bucket
          else r.Name ++ str ":" ++ r.Bucket ++ str "/" ++ rest, true) ∧
      strings.HasPrefix rest (str "/") = false ∧
      (rest ≠ [] →
        strings.HasSuffix (r.Name ++ str ":" ++ r.Bucket ++ str "/" ++ rest) (str "/") = false) := by
  obtain ⟨hsub, hlen, htrim, hpre, hlast⟩ := below_clean r.Mountpoint p rest hm habs hp hb hdd
  have hsuf : rest ≠ [] →
      (r.Name ++ str ":" ++ r.Bucket ++ str "/" ++ rest).getLast? ≠ some '/' := by
    intro hne
    have h1 := hlast hne
    rw [List.getLast?_append]
    cases hl : rest.getLast? with
    | none => exact absurd (List.getLast?_eq_none_iff.mp hl) hne
    | some l =>
      rw [hl] at h1
      simpa using h1
  refine ⟨?_, hpre, ?_⟩
  · unfold remotePath
    rw [if_pos hsub, if_pos hlen]
    simp only [htrim]
    by_cases hne : rest = []
    · rw [if_pos hne, hne, List.append_nil, TrimSuffix_append_slash]
    · rw [if_neg hne, TrimSuffix_of_not_slash _ (hsuf hne)]
  · intro hne
    cases hs : strings.HasSuffix (r.Name ++ str ":" ++ r.Bucket ++ str "/" ++ rest) (str "/") with
    | false => rfl
    | true => exact absurd ((HasSuffix_slash_iff _).mp hs) (hsuf hne)

/-- The resolution of `/mnt/remote1/sub/f` and of `/mnt/remote1` itself under
`/mnt/remote1`. -/
theorem remotePath_nested_clean_example :
    remotePath (str "/mnt/remote1/sub/f") [sampleRemote] =
        some (if str "sub/f" = [] then sampleRemote.Name ++ str ":" ++ sampleRemote.Bucket
          else sampleRemote.Name ++ str ":" ++ sampleRemote.Bucket ++ str "/" ++ str "sub/f",
          true) ∧
      remotePath (str "/mnt/remote1/sub/f") [sampleRemote] = some (str "r1:bk/sub/f", true) ∧
      remotePath (str "/mnt/remote1") [sampleRemote] = some (str "r1:bk", true) :=
  ⟨(remotePath_nested_clean sampleRemote (str "/mnt/remote1/sub/f") (str "sub/f")
      (by decide) (by decide) (by decide) (by decide) (by decide)).1,
   by decide, by decide⟩

end Rcp
